import Mathlib

/-!
Verification development for the vibeSync audio fingerprint signature engine.

The definitions below are a shallow embedding of the repository's Python code:

* `src/fingerprinting/signatureFormat.py` — the binary codec
  (`DecodedMessage.encode_to_binary` / `DecodedMessage.decode_from_binary`);
* `src/fingerprinting/algorithm.py` — the signature generator
  (`SignatureGenerator`, its ring buffers, FFT stage, peak spreader and
  peak recognizer).

Modelling conventions:

* Python byte strings are `List Nat` with every element `< 256`; Python's
  `int.to_bytes(w, 'little')` / `int.from_bytes(_, 'little')` become
  `toBytesLE` / `fromBytesLE`.
* Python's unbounded `int` is `Nat` or `Int` as the context requires.
* Python `float` values in the DSP pipeline are modelled as real numbers
  (`ℝ`).  Every float computation relevant to the verified claims is either
  exact in IEEE double precision (e.g. `16000 * 0.24 == 3840.0` holds exactly
  in doubles, see `srQuarter`) or concerns only the control structure of
  the code, which is insensitive to the idealization.
* `BytesIO.read n`, which returns `min n remaining` bytes, becomes
  `List.take n` / `List.drop n` on the remaining byte list.
* Python `dict` (insertion ordered, assignment replaces in place) is an
  association list with `dictInsert` / `dictGetD`.
-/

set_option maxHeartbeats 4000000
set_option maxRecDepth 8000

namespace VibeSync

/-! ## Byte-level primitives -/

/-- Little-endian byte encoding of `n` on `w` bytes, as Python's
`n.to_bytes(w, 'little')` (which raises for `n ≥ 2^(8*w)`; here the high
bits are simply dropped, and well-formedness predicates rule that out). -/
def toBytesLE : Nat → Nat → List Nat
  | 0, _ => []
  | w + 1, n => n % 256 :: toBytesLE w (n / 256)

/-- Little-endian byte decoding, as Python's `int.from_bytes(b, 'little')`
(defined on byte strings of any length, including the empty one). -/
def fromBytesLE : List Nat → Nat
  | [] => 0
  | b :: bs => b + 256 * fromBytesLE bs

/-- The reflected CRC-32 polynomial used by `binascii.crc32`. -/
def crcPoly : Nat := 0xEDB88320

/-- One bit step of the reflected CRC-32: shift right, conditionally xor the
polynomial. -/
def crcBitStep (c : Nat) : Nat :=
  if c % 2 = 1 then (c / 2) ^^^ crcPoly else c / 2

/-- One byte step of CRC-32: xor the byte into the low bits, then eight bit
steps. -/
def crcByteStep (c b : Nat) : Nat :=
  crcBitStep^[8] (c ^^^ b)

/-- The IEEE CRC-32 of a byte string, as computed by `binascii.crc32`
(initial value `0xFFFFFFFF`, final xor `0xFFFFFFFF`). -/
def crc32 (data : List Nat) : Nat :=
  (data.foldl crcByteStep 0xFFFFFFFF) ^^^ 0xFFFFFFFF

/-! ## Data model (`signatureFormat.py`) -/

/-- The `FrequencyBand` enum.  Tags are the wire tags of the source:
`_0_250 = -1`, `_250_520 = 0`, `_520_1450 = 1`, `_1450_3500 = 2`,
`_3500_5500 = 3`. -/
inductive FrequencyBand : Type
  | band_0_250
  | band_250_520
  | band_520_1450
  | band_1450_3500
  | band_3500_5500
  deriving DecidableEq, Repr, Fintype

/-- The integer value of a `FrequencyBand` member (`int(band)` in Python). -/
def FrequencyBand.tag : FrequencyBand → Int
  | .band_0_250 => -1
  | .band_250_520 => 0
  | .band_520_1450 => 1
  | .band_1450_3500 => 2
  | .band_3500_5500 => 3

/-- The enum constructor `FrequencyBand(t)`: `some` member for a valid tag,
`none` for the `ValueError` Python raises otherwise. -/
def bandOfTag (t : Int) : Option FrequencyBand :=
  if t = -1 then some .band_0_250
  else if t = 0 then some .band_250_520
  else if t = 1 then some .band_520_1450
  else if t = 2 then some .band_1450_3500
  else if t = 3 then some .band_3500_5500
  else none

/-- The `FrequencyPeak` record of `signatureFormat.py`. -/
structure FrequencyPeak : Type where
  fft_pass_number : Nat
  peak_magnitude : Nat
  corrected_peak_frequency_bin : Nat
  sample_rate_hz : Nat
  deriving DecidableEq, Repr

/-- The `DecodedMessage` object: sample rate, sample count, and the
band-to-peaks dictionary (an insertion-ordered association list, like a
Python `dict`).  `number_samples` is an `Int` because the decoder computes
it by a subtraction that is not clamped in the source. -/
structure DecodedMessage : Type where
  sample_rate_hz : Nat
  number_samples : Int
  frequency_band_to_sound_peaks : List (FrequencyBand × List FrequencyPeak)
  deriving DecidableEq, Repr

/-- Python `dict` assignment `d[k] = v`: replace in place if the key exists,
append at the end otherwise. -/
def dictInsert {K V : Type} [DecidableEq K] (k : K) (v : V) :
    List (K × V) → List (K × V)
  | [] => [(k, v)]
  | (k', v') :: rest =>
      if k' = k then (k, v) :: rest else (k', v') :: dictInsert k v rest

/-- Python `dict` lookup with a default. -/
def dictGetD {K V : Type} [DecidableEq K] (l : List (K × V)) (k : K) (d : V) : V :=
  match l with
  | [] => d
  | (k', v') :: rest => if k' = k then v' else dictGetD rest k d

/-- Membership test `k in d` for the association-list dictionary. -/
def dictMem {K V : Type} [DecidableEq K] (k : K) (l : List (K × V)) : Bool :=
  match l with
  | [] => false
  | (k', _) :: rest => k' = k || dictMem k rest

/-- The `SampleRate` enum member for a sample rate in Hz (`getattr(SampleRate,
f'_{hz}')`); `0` stands for the `AttributeError` on an unknown rate, which
well-formedness excludes. -/
def srId (hz : Nat) : Nat :=
  if hz = 8000 then 1
  else if hz = 11025 then 2
  else if hz = 16000 then 3
  else if hz = 32000 then 4
  else if hz = 44100 then 5
  else if hz = 48000 then 6
  else 0

/-- The sample rate named by a `SampleRate` id (`SampleRate(id).name`),
`none` for the `ValueError` on an unknown id. -/
def srOfId (i : Nat) : Option Nat :=
  if i = 1 then some 8000
  else if i = 2 then some 11025
  else if i = 3 then some 16000
  else if i = 4 then some 32000
  else if i = 5 then some 44100
  else if i = 6 then some 48000
  else none

/-- The exact value of the float product `hz * 0.24` for each of the six
supported rates.  In IEEE doubles, `hz * 0.24` rounds to the integer
`hz * 24 / 100` exactly for all six (e.g. `16000 * 0.24 == 3840.0`), so the
source's `int(number_samples + sample_rate_hz * 0.24)` is exactly
`number_samples + srQuarter hz`. -/
def srQuarter (hz : Nat) : Nat := hz * 24 / 100

/-! ## Encoder (`DecodedMessage.encode_to_binary`) -/

/-- The wire band id `0x60030040 + int(band)` as an unsigned 32-bit value. -/
def bandWireId (b : FrequencyBand) : Nat := (0x60030040 + b.tag).toNat

/-- The peak payload of one band, threading the running FFT pass counter:
`_encode_frequency_peaks`' inner loop.  A jump of `0xFF` or more emits an
absolute marker (`0xFF` + little-endian u32 pass number) and resets the
running counter before the peak record, making its delta byte `0`. -/
def encodePeaksGo : Nat → List FrequencyPeak → List Nat
  | _, [] => []
  | running, pk :: rest =>
      if running + 0xFF ≤ pk.fft_pass_number then
        -- absolute marker, then the peak record (its delta is 0)
        0xFF :: (toBytesLE 4 pk.fft_pass_number ++
          0 :: (toBytesLE 2 pk.peak_magnitude ++
            toBytesLE 2 pk.corrected_peak_frequency_bin ++
            encodePeaksGo pk.fft_pass_number rest))
      else
        (pk.fft_pass_number - running) ::
          (toBytesLE 2 pk.peak_magnitude ++
            toBytesLE 2 pk.corrected_peak_frequency_bin ++
            encodePeaksGo pk.fft_pass_number rest)

/-- Insertion of one dictionary item into a band list sorted by tag.  With
the distinct keys of a `dict`, this reproduces Python's
`sorted(d.items())`. -/
def insertBand (x : FrequencyBand × List FrequencyPeak) :
    List (FrequencyBand × List FrequencyPeak) →
    List (FrequencyBand × List FrequencyPeak)
  | [] => [x]
  | y :: ys => if x.1.tag ≤ y.1.tag then x :: y :: ys else y :: insertBand x ys

/-- Sorting the band dictionary items by band tag (`sorted(d.items())`). -/
def sortBands (l : List (FrequencyBand × List FrequencyPeak)) :
    List (FrequencyBand × List FrequencyPeak) :=
  l.foldr insertBand []

/-- The TLV section of one band: id, payload length, payload, zero padding
to a 4-byte boundary.  Bands with no peaks are skipped (`continue`). -/
def encodeBandSection (item : FrequencyBand × List FrequencyPeak) : List Nat :=
  if item.2 = [] then []
  else
    let payload := encodePeaksGo 0 item.2
    toBytesLE 4 (bandWireId item.1) ++ toBytesLE 4 payload.length ++
      payload ++ List.replicate ((4 - payload.length % 4) % 4) 0

/-- The concatenated band sections, in ascending tag order:
`_encode_frequency_peaks`. -/
def encodeContents (m : DecodedMessage) : List Nat :=
  (sortBands m.frequency_band_to_sound_peaks).flatMap encodeBandSection

/-- The bytes following the first 8 header bytes, for a sample rate `sr`,
sample count `ns` and TLV contents `content`: the remaining 40 header bytes
(size, magic2, voids, shifted sample rate id, sample-count field, fixed
value), the fixed TLV section, and the contents.  This is exactly the data
the CRC-32 covers. -/
def rawBody (sr : Nat) (ns : Int) (content : List Nat) : List Nat :=
  toBytesLE 4 (content.length + 8) ++                        -- size_minus_header
    toBytesLE 4 0x94119c00 ++                                -- magic2
    List.replicate 12 0 ++                                   -- void1
    toBytesLE 4 (srId sr <<< 27) ++                          -- shifted_sample_rate_id
    List.replicate 8 0 ++                                    -- void2
    toBytesLE 4 (ns + srQuarter sr).toNat ++
    toBytesLE 4 ((15 <<< 19) + 0x40000) ++                   -- fixed_value
    toBytesLE 4 0x40000000 ++                                -- fixed TLV type
    toBytesLE 4 (content.length + 8) ++                      -- fixed TLV length
    content

/-- A full message around `rawBody`: magic1, the CRC-32 of everything after
the first 8 bytes, then that body. -/
def rawMsg (sr : Nat) (ns : Int) (content : List Nat) : List Nat :=
  toBytesLE 4 0xcafe2580 ++ toBytesLE 4 (crc32 (rawBody sr ns content)) ++
    rawBody sr ns content

/-- The body of `DecodedMessage.encode_to_binary`'s output after the first
8 bytes. -/
def encodeBody (m : DecodedMessage) : List Nat :=
  rawBody m.sample_rate_hz m.number_samples (encodeContents m)

/-- `DecodedMessage.encode_to_binary`: magic1, the CRC-32 of everything after
the first 8 bytes, then the body. -/
def encode_to_binary (m : DecodedMessage) : List Nat :=
  rawMsg m.sample_rate_hz m.number_samples (encodeContents m)

/-! ## Decoder (`DecodedMessage.decode_from_binary`) -/

/-- The decode failure modes of `decode_from_binary`, one per failing
`assert`/`ValueError` of the source, in source order.  The source has no
truncation check: `BytesIO.read` silently returns fewer bytes at the end of
the buffer, so no `truncated` error exists. -/
inductive DecodeError : Type
  | invalidMagic1
  | sizeMismatch
  | checksumMismatch
  | invalidMagic2
  | unknownSampleRate
  | invalidFixedTlvType
  | invalidFixedTlvLength
  | unknownBand
  deriving DecidableEq, Repr

/-- The peak list of one band section: `_decode_band_peaks`.  A `0xFF` byte
resets the running pass counter from the next (up to) four bytes; any other
byte is a delta followed by (up to) two magnitude bytes and two frequency
bytes.  Short reads at the end of the payload simply yield smaller
integers, exactly as `BytesIO.read` + `int.from_bytes` do. -/
def parseBandPeaks (sr : Nat) : Nat → List Nat → List FrequencyPeak
  | _, [] => []
  | running, off :: rest =>
      if off = 0xFF then
        parseBandPeaks sr (fromBytesLE (rest.take 4)) (rest.drop 4)
      else
        { fft_pass_number := running + off
          peak_magnitude := fromBytesLE (rest.take 2)
          corrected_peak_frequency_bin := fromBytesLE ((rest.drop 2).take 2)
          sample_rate_hz := sr } ::
          parseBandPeaks sr (running + off) (rest.drop 4)
  termination_by _ buf => buf.length
  decreasing_by all_goals simp [List.length_drop]; omega

/-- The band-section loop of `_decode_frequency_peaks`: read an (up to)
8-byte TLV header, the declared number of payload bytes (or as many as
remain), the alignment padding, and assign the decoded peak list into the
dictionary.  A band id whose tag is not a `FrequencyBand` member raises
(`unknownBand`). -/
def parseBands (sr : Nat) (acc : List (FrequencyBand × List FrequencyPeak))
    (buf : List Nat) :
    Except DecodeError (List (FrequencyBand × List FrequencyPeak)) :=
  if hbuf : buf = [] then .ok acc
  else
    let hdr := buf.take 8
    let rest := buf.drop 8
    let bandId := fromBytesLE (hdr.take 4)
    let psize := fromBytesLE (hdr.drop 4)
    let pad := (4 - psize % 4) % 4
    match bandOfTag ((bandId : Int) - 0x60030040) with
    | none => .error .unknownBand
    | some band =>
        parseBands sr
          (dictInsert band (parseBandPeaks sr 0 (rest.take psize)) acc)
          ((rest.drop psize).drop pad)
  termination_by buf.length
  decreasing_by
    simp only [List.length_drop]
    have := List.length_pos.mpr hbuf
    omega

/-- The 48 bytes `BytesIO.readinto` copies into the zero-initialized
`RawSignatureHeader` struct: a prefix of the data, zero-filled when the
data is short. -/
def headerBytes (data : List Nat) : List Nat :=
  data.take 48 ++ List.replicate (48 - data.length) 0

/-- The unsigned 32-bit header field starting at byte offset `j`. -/
def headerField (data : List Nat) (j : Nat) : Nat :=
  fromBytesLE (((headerBytes data).drop j).take 4)

/-- `DecodedMessage.decode_from_binary`.  The header is read by
`BytesIO.readinto` into a zero-initialized 48-byte struct (short data only
fills a prefix), and the four asserts run in source order: magic1, size,
CRC-32, magic2; then the sample-rate enum lookup, the sample count, the
fixed TLV section, and the band sections. -/
def decode_from_binary (data : List Nat) : Except DecodeError DecodedMessage :=
  let checksummable := data.drop 8
  let magic1 := headerField data 0
  let crcField := headerField data 4
  let sizeField := headerField data 8
  let magic2 := headerField data 12
  let shifted := headerField data 28
  let nsField := headerField data 40
  if magic1 ≠ 0xcafe2580 then .error .invalidMagic1
  else if (sizeField : Int) ≠ (data.length : Int) - 48 then .error .sizeMismatch
  else if crc32 checksummable ≠ crcField then .error .checksumMismatch
  else if magic2 ≠ 0x94119c00 then .error .invalidMagic2
  else
    match srOfId (shifted >>> 27) with
    | none => .error .unknownSampleRate
    | some sr =>
        let numberSamples : Int := (nsField : Int) - srQuarter sr
        let rest0 := data.drop 48
        if fromBytesLE (rest0.take 4) ≠ 0x40000000 then .error .invalidFixedTlvType
        else if (fromBytesLE ((rest0.drop 4).take 4) : Int) ≠ (data.length : Int) - 48 then
          .error .invalidFixedTlvLength
        else
          match parseBands sr [] (rest0.drop 8) with
          | .error e => .error e
          | .ok bands =>
              .ok { sample_rate_hz := sr
                    number_samples := numberSamples
                    frequency_band_to_sound_peaks := bands }

/-! ## Well-formedness of encodable signatures -/

/-- A peak list a band dictionary entry may carry on an encodable signature:
pass numbers non-decreasing (so delta bytes are non-negative), every field
within its wire width, and the peak's sample rate equal to the
signature's. -/
def PeaksWF (sr : Nat) (l : List FrequencyPeak) : Prop :=
  List.Chain' (fun a b => a.fft_pass_number ≤ b.fft_pass_number) l ∧
    ∀ pk ∈ l, pk.sample_rate_hz = sr ∧ pk.fft_pass_number < 2 ^ 32 ∧
      pk.peak_magnitude < 2 ^ 16 ∧ pk.corrected_peak_frequency_bin < 2 ^ 16

/-- A well-formed signature: a supported sample rate, a sample count whose
header field fits in a u32, distinct band keys (a `dict` guarantees this),
and non-empty, well-formed peak lists of bounded length (so every
`int.to_bytes` in the encoder succeeds). -/
def MsgWF (m : DecodedMessage) : Prop :=
  (m.sample_rate_hz = 8000 ∨ m.sample_rate_hz = 11025 ∨ m.sample_rate_hz = 16000 ∨
      m.sample_rate_hz = 32000 ∨ m.sample_rate_hz = 44100 ∨ m.sample_rate_hz = 48000) ∧
    0 ≤ m.number_samples ∧
    m.number_samples + srQuarter m.sample_rate_hz < 2 ^ 32 ∧
    (m.frequency_band_to_sound_peaks.map Prod.fst).Nodup ∧
    ∀ it ∈ m.frequency_band_to_sound_peaks,
      it.2 ≠ [] ∧ it.2.length < 2 ^ 26 ∧ PeaksWF m.sample_rate_hz it.2

/-- A structurally recursive decision procedure for the non-decreasing
pass-number chain, so that concrete well-formedness checks evaluate. -/
def chainLeDec : (l : List FrequencyPeak) →
    Decidable (List.Chain' (fun a b => a.fft_pass_number ≤ b.fft_pass_number) l)
  | [] => isTrue List.chain'_nil
  | [a] => isTrue (List.chain'_singleton a)
  | a :: b :: rest =>
      match chainLeDec (b :: rest) with
      | isTrue h =>
          if hab : a.fft_pass_number ≤ b.fft_pass_number then
            isTrue (List.Chain'.cons hab h)
          else isFalse fun hc => hab (List.chain'_cons.mp hc).1
      | isFalse h => isFalse fun hc => h (List.chain'_cons.mp hc).2

instance (priority := 2000) instChainLeDec (l : List FrequencyPeak) :
    Decidable (List.Chain' (fun a b => a.fft_pass_number ≤ b.fft_pass_number) l) :=
  chainLeDec l

instance instPeaksWFDec (sr : Nat) (l : List FrequencyPeak) :
    Decidable (PeaksWF sr l) := by
  unfold PeaksWF
  infer_instance

instance instMsgWFDec (m : DecodedMessage) : Decidable (MsgWF m) := by
  unfold MsgWF
  infer_instance

/-- The canonical form of a signature: the same data with the band
dictionary in ascending tag order — exactly what decoding an encoded
signature yields. -/
def canon (m : DecodedMessage) : DecodedMessage :=
  { m with frequency_band_to_sound_peaks := sortBands m.frequency_band_to_sound_peaks }

/-! ## Claim-modelled peak encoding (for the absolute-marker claim) -/

/-- Modelled from the claim's words (C4): the bytes emitted for one peak.
When `fft_pass_number` exceeds the running counter by `255` or more: the
byte `0xFF`, the pass number as a little-endian u32, then the peak record
with delta byte `0`; otherwise a single delta byte `fft_pass_number -
running` followed by the u16 magnitude and the u16 corrected bin. -/
def claimPeakBytes (running : Nat) (pk : FrequencyPeak) : List Nat :=
  if (pk.fft_pass_number : Int) - running ≥ 255 then
    0xFF :: toBytesLE 4 pk.fft_pass_number ++ 0 ::
      toBytesLE 2 pk.peak_magnitude ++ toBytesLE 2 pk.corrected_peak_frequency_bin
  else
    ((pk.fft_pass_number : Int) - running).toNat ::
      toBytesLE 2 pk.peak_magnitude ++ toBytesLE 2 pk.corrected_peak_frequency_bin

/-- Modelled from the claim's words (C4): the whole band payload, with the
running counter set to each peak's `fft_pass_number` after its record. -/
def claimEncodePeaks (running : Nat) : List FrequencyPeak → List Nat
  | [] => []
  | pk :: rest => claimPeakBytes running pk ++ claimEncodePeaks pk.fft_pass_number rest

/-- The delta bytes a peak list gives rise to are all in the claimed ranges:
every peak either triggers an absolute marker (jump `≥ 255`) or has an
integer delta in `[0, 0xFE]`. -/
def DeltasInRange (running : Nat) : List FrequencyPeak → Prop
  | [] => True
  | pk :: rest =>
      ((pk.fft_pass_number : Int) - running ≥ 255 ∨
        (0 ≤ (pk.fft_pass_number : Int) - running ∧
          (pk.fft_pass_number : Int) - running ≤ 0xFE)) ∧
        DeltasInRange pk.fft_pass_number rest

/-! ## Bit flips (for the CRC claim) -/

/-- The byte string with bit `k` of the byte at offset `i` flipped. -/
def flipBit (data : List Nat) (i k : Nat) : List Nat :=
  data.set i (data.getD i 0 ^^^ (1 <<< k))

/-! ## Concrete signatures and byte strings used as test inputs -/

/-- A peak used in the concrete examples. -/
def pkA : FrequencyPeak := ⟨10, 1000, 2048, 16000⟩

/-- A second peak, 390 FFT passes after `pkA`, forcing an absolute marker. -/
def pkB : FrequencyPeak := ⟨400, 2000, 4096, 16000⟩

/-- A concrete well-formed signature with two bands (deliberately not in
tag order) and a pass-number jump of `390 ≥ 255` inside one band. -/
def msgEx : DecodedMessage :=
  ⟨16000, 48000, [(.band_520_1450, [pkA, pkB]), (.band_250_520, [pkA])]⟩

/-- The encoded bytes of `msgEx`. -/
def bytesEx : List Nat := encode_to_binary msgEx

/-- A 64-byte message (sample rate 16000, zero samples) with one band
section of band id `bid` and an empty peak payload: used to probe the
decoder's treatment of band tags. -/
def mkBandMsg (bid : Nat) : List Nat :=
  rawMsg 16000 0 (toBytesLE 4 bid ++ toBytesLE 4 0)

/-- A 68-byte message whose single band section declares `psize` payload
bytes while only the four bytes `[7, 9, 0, 3]` remain: used to probe the
decoder's treatment of truncated payloads. -/
def mkTruncMsg (psize : Nat) : List Nat :=
  rawMsg 16000 0 (toBytesLE 4 0x60030040 ++ toBytesLE 4 psize ++ [7, 9, 0, 3])

/-- The partial peak the decoder reads out of the four leftover bytes
`[7, 9, 0, 3]` of a truncated band payload: delta 7, a full magnitude read
`[9, 0]`, and a short (one-byte) frequency read `[3]`. -/
def truncPeakMsg : DecodedMessage :=
  ⟨16000, 0, [(.band_250_520, [⟨7, 9, 3, 16000⟩])]⟩

/-! ## The signature generator (`algorithm.py`)

The DSP pipeline is modelled over the real numbers: every Python float
becomes an `ℝ`, `numpy.fft.rfft` becomes the defining DFT sum, and the Hann
window its closed form.  The claims proved below concern the control
structure of the pipeline (which comparisons guard peak emission, how the
driver loop terminates and resets), which this idealization preserves. -/

/-- The `RingBuffer` of `algorithm.py`: a fixed-size circular store.  The
buffer is a total function; `position` is always kept in
`[0, buffer_size)` as in the source. -/
structure RingBuffer (α : Type) : Type where
  buffer : Nat → α
  position : Nat
  buffer_size : Nat
  num_written : Nat

/-- A fresh ring with every slot holding the default value (the source
copies the default into each slot). -/
def initRing {α : Type} (n : Nat) (d : α) : RingBuffer α :=
  ⟨fun _ => d, 0, n, 0⟩

/-- Modular read `ring[index]`: Python's `buffer[index % buffer_size]`,
with `Int.emod` matching Python's `%` on negative indices. -/
def rbGet {α : Type} (r : RingBuffer α) (i : Int) : α :=
  r.buffer (i % (r.buffer_size : Int)).toNat

/-- `RingBuffer.append`: write at the cursor, advance it modulo the size,
count the write. -/
def rbAppend {α : Type} (r : RingBuffer α) (v : α) : RingBuffer α :=
  { r with
    buffer := fun j => if j = r.position then v else r.buffer j
    position := (r.position + 1) % r.buffer_size
    num_written := r.num_written + 1 }

/-- Overwrite the vector stored at modular index `i` (the in-place list
mutation performed by the time-domain spreading). -/
def rbSet {α : Type} (r : RingBuffer α) (i : Int) (v : α) : RingBuffer α :=
  { r with
    buffer := fun j => if (j : Int) = i % (r.buffer_size : Int) then v else r.buffer j }

/-- The DSP-side state of `SignatureGenerator`: the three ring buffers and
the signature under construction (`reset_signature` reinstalls exactly
these four). -/
structure DspState : Type where
  ring_buffer_of_samples : RingBuffer Int
  fft_outputs : RingBuffer (Nat → ℝ)
  spread_ffts_output : RingBuffer (Nat → ℝ)
  next_signature : DecodedMessage

/-- `SignatureGenerator.reset_signature`. -/
def resetSignature (_ : DspState) : DspState :=
  { ring_buffer_of_samples := initRing 2048 0
    fft_outputs := initRing 256 fun _ => 0
    spread_ffts_output := initRing 256 fun _ => 0
    next_signature := ⟨16000, 0, []⟩ }

/-- The whole generator state: the pending input queue and the consumed
cursor (`samples_processed`), plus the DSP state. -/
structure GenState : Type where
  input_pending_processing : List Int
  samples_processed : Nat
  dsp : DspState

/-- `SignatureGenerator.__init__`. -/
def initGen : GenState :=
  ⟨[], 0, resetSignature ⟨initRing 2048 0, initRing 256 fun _ => 0,
    initRing 256 fun _ => 0, ⟨16000, 0, []⟩⟩⟩

/-- `SignatureGenerator.feed_input`. -/
def feed_input (st : GenState) (samples : List Int) : GenState :=
  { st with input_pending_processing := st.input_pending_processing ++ samples }

/-- The precomputed Hann window: `numpy.hanning(2050)[1:-1]`, so entry `j`
is `0.5 - 0.5*cos(2*pi*(j+1)/2049)`. -/
noncomputable def hanningWindow (j : Nat) : ℝ :=
  1 / 2 - 1 / 2 * Real.cos (2 * Real.pi * (j + 1) / 2049)

/-- `numpy.fft.rfft` on a length-2048 real frame: bin `k` is the DFT sum
`Σ_n x_n · exp(-2πi·n·k/2048)`. -/
noncomputable def rfft (x : Nat → ℝ) (k : Nat) : ℂ :=
  ∑ n ∈ Finset.range 2048, (x n : ℂ) *
    Complex.exp (-2 * Real.pi * Complex.I * n * k / 2048)

/-- `SignatureGenerator.do_fft`: append the 128 new samples to the sample
ring (the source's two-branch slice assignment writes the chunk at
positions `position, position+1, …` mod 2048, advances the cursor by the
chunk length and adds it to `num_written` — exactly elementwise appends),
window the oldest-first excerpt, and append the floored power spectrum to
the FFT ring. -/
noncomputable def do_fft (st : DspState) (chunk : List Int) : DspState :=
  let ring := chunk.foldl rbAppend st.ring_buffer_of_samples
  let excerpt : Nat → ℝ := fun j => (rbGet ring ((ring.position : Int) + j) : Int)
  let windowed : Nat → ℝ := fun j => hanningWindow j * excerpt j
  let frame : Nat → ℝ := fun k =>
    max (Complex.normSq (rfft windowed k) / 2 ^ 17) (1 / 10 ^ 10)
  { st with ring_buffer_of_samples := ring
            fft_outputs := rbAppend st.fft_outputs frame }

/-- `SignatureGenerator.do_peak_spreading`.  The frequency-domain loop
writes index `i` from indices `i, i+1, i+2` of the not-yet-overwritten
suffix, so it is the 3-window max of the original vector on `[0, 1022]`;
the time-domain loop then mutates the ring vectors at offsets `-1, -3, -6`
with an accumulating maximum, and the spread vector is appended. -/
noncomputable def do_peak_spreading (st : DspState) : DspState :=
  let origin := rbGet st.fft_outputs ((st.fft_outputs.position : Int) - 1)
  let spread : Nat → ℝ := fun i =>
    if i < 1023 then max (origin i) (max (origin (i + 1)) (origin (i + 2)))
    else origin i
  let s := st.spread_ffts_output
  let m1 : Nat → ℝ := fun p => max (rbGet s ((s.position : Int) - 1) p) (spread p)
  let s1 := rbSet s ((s.position : Int) - 1) m1
  let m3 : Nat → ℝ := fun p => max (rbGet s1 ((s1.position : Int) - 3) p) (m1 p)
  let s3 := rbSet s1 ((s1.position : Int) - 3) m3
  let m6 : Nat → ℝ := fun p => max (rbGet s3 ((s3.position : Int) - 6) p) (m3 p)
  let s6 := rbSet s3 ((s3.position : Int) - 6) m6
  { st with spread_ffts_output := rbAppend s6 spread }

/-- The frequency-neighbour offsets
`[*range(-10, -3, 3), -3, 1, *range(2, 9, 3)]`. -/
def freqNeighborOffsets : List Int := [-10, -7, -4, -3, 1, 2, 5, 8]

/-- The time-neighbour offsets
`[-53, -45, *range(165, 201, 7), *range(214, 250, 7)]`. -/
def timeNeighborOffsets : List Int :=
  [-53, -45, 165, 172, 179, 186, 193, 200, 214, 221, 228, 235, 242, 249]

/-- Python's `max` over a non-empty sequence (all uses here are
non-empty). -/
def maxND : List ℝ → ℝ
  | [] => 0
  | x :: xs => xs.foldl max x

/-- Python's `int()` truncation toward zero. -/
noncomputable def pyTrunc (x : ℝ) : Int :=
  if 0 ≤ x then ⌊x⌋ else -⌊-x⌋

/-- The `FREQ_BANDS` assignment: the first of the four ranges (in the
source's insertion order) containing the frequency, if any. -/
noncomputable def bandForFreq (f : ℝ) : Option FrequencyBand :=
  if 250 ≤ f ∧ f < 520 then some .band_250_520
  else if 520 ≤ f ∧ f < 1450 then some .band_520_1450
  else if 1450 ≤ f ∧ f < 3500 then some .band_1450_3500
  else if 3500 ≤ f ∧ f < 5500 then some .band_3500_5500
  else none

/-- One candidate bin of `do_peak_recognition`: the magnitude floor, the
frequency-local and time-local maximum tests, the parabolic interpolation
with its `v₁ > 0` guard, the 250 Hz floor, and the band assignment; `some`
with the band and the constructed peak when every test passes. -/
noncomputable def recognizeBin (st : DspState) (p : Nat) :
    Option (FrequencyBand × FrequencyPeak) :=
  let fft_minus_46 := rbGet st.fft_outputs ((st.fft_outputs.position : Int) - 46)
  let s := st.spread_ffts_output
  let fft_minus_49 := rbGet s ((s.position : Int) - 49)
  if fft_minus_46 p < 1 / 64 ∨ fft_minus_46 p < fft_minus_49 (p - 1) then none
  else if fft_minus_46 p ≤
      maxND (freqNeighborOffsets.map fun o => fft_minus_49 ((p : Int) + o).toNat) then
    none
  else if fft_minus_46 p ≤
      maxND (timeNeighborOffsets.map fun o =>
        rbGet s ((s.position : Int) + o) (p - 1)) then
    none
  else
    let peak_magnitude := Real.log (max (1 / 64) (fft_minus_46 p)) * (14773 / 10) + 6144
    let peak_magnitude_before :=
      Real.log (max (1 / 64) (fft_minus_46 (p - 1))) * (14773 / 10) + 6144
    let peak_magnitude_after :=
      Real.log (max (1 / 64) (fft_minus_46 (p + 1))) * (14773 / 10) + 6144
    let peak_variation_1 :=
      peak_magnitude * 2 - peak_magnitude_before - peak_magnitude_after
    if peak_variation_1 ≤ 0 then none
    else
      let peak_variation_2 :=
        (peak_magnitude_after - peak_magnitude_before) * 32 / peak_variation_1
      let corrected_peak_frequency_bin := (p : ℝ) * 64 + peak_variation_2
      let frequency_hz := corrected_peak_frequency_bin * (16000 / 2 / 1024 / 64)
      if frequency_hz < 250 then none
      else
        match bandForFreq frequency_hz with
        | none => none
        | some band =>
            some (band,
              ⟨st.spread_ffts_output.num_written - 46,
                (pyTrunc peak_magnitude).toNat,
                (pyTrunc corrected_peak_frequency_bin).toNat, 16000⟩)

/-- Appending a peak to a band's list in the signature dictionary
(`if band not in …: … = []` followed by `append`). -/
def dictAppendPeak (band : FrequencyBand) (pk : FrequencyPeak)
    (bands : List (FrequencyBand × List FrequencyPeak)) :
    List (FrequencyBand × List FrequencyPeak) :=
  dictInsert band (dictGetD bands band [] ++ [pk]) bands

/-- `SignatureGenerator.do_peak_recognition`: scan bins 10–1014 (the four
reference frames are read from the state before the loop; the loop only
appends to the signature). -/
noncomputable def do_peak_recognition (st : DspState) : DspState :=
  { st with next_signature := { st.next_signature with
      frequency_band_to_sound_peaks :=
        (List.range' 10 1005).foldl (fun bands p =>
          match recognizeBin st p with
          | none => bands
          | some (band, pk) => dictAppendPeak band pk bands)
          st.next_signature.frequency_band_to_sound_peaks } }

/-- `SignatureGenerator.do_peak_spreading_and_recognition`. -/
noncomputable def do_peak_spreading_and_recognition (st : DspState) : DspState :=
  let st1 := do_peak_spreading st
  if 46 ≤ st1.spread_ffts_output.num_written then do_peak_recognition st1 else st1

/-- Splitting a sample list into chunks of (at most) 128, as the
`range(0, len, 128)` loop of `process_input` does. -/
def chunks128 (l : List Int) : List (List Int) :=
  if l = [] then [] else l.take 128 :: chunks128 (l.drop 128)
  termination_by l.length
  decreasing_by
    simp only [List.length_drop]
    rename_i h
    have := List.length_pos.mpr h
    omega

/-- `SignatureGenerator.process_input`: count the samples into the
signature, then feed each 128-sample chunk through the FFT stage, the
spreader and (once 46 frames exist) the recognizer. -/
noncomputable def process_input (st : DspState) (samples : List Int) : DspState :=
  let st0 := { st with next_signature := { st.next_signature with
      number_samples := st.next_signature.number_samples + samples.length } }
  (chunks128 samples).foldl
    (fun s c => do_peak_spreading_and_recognition (do_fft s c)) st0

/-- The total peak count `sum(len(peaks) for peaks in … .values())`. -/
def totalPeaks (sig : DecodedMessage) : Nat :=
  (sig.frequency_band_to_sound_peaks.map fun it => it.2.length).sum

open scoped Classical in
/-- The driver loop of `get_next_signature`: take the next 128 pending
samples and process them, while at least 128 remain unconsumed and (the
signature is under 30 seconds OR under 255 peaks). -/
noncomputable def gnsLoop (st : GenState) : GenState :=
  if 128 ≤ st.input_pending_processing.length - st.samples_processed ∧
      ((st.dsp.next_signature.number_samples : ℝ) /
          (st.dsp.next_signature.sample_rate_hz : ℝ) < 30 ∨
        totalPeaks st.dsp.next_signature < 255) then
    gnsLoop { st with
      samples_processed := st.samples_processed + 128
      dsp := process_input st.dsp
        ((st.input_pending_processing.drop st.samples_processed).take 128) }
  else st
  termination_by st.input_pending_processing.length - st.samples_processed
  decreasing_by
    rename_i h
    have h1 := h.1
    simp only [GenState.mk.injEq] at h1 ⊢
    omega

/-- `SignatureGenerator.get_next_signature`: `none` when fewer than 128
unconsumed samples are pending; otherwise run the loop, hand out the
accumulated signature, and reset the DSP state. -/
noncomputable def get_next_signature (st : GenState) :
    Option DecodedMessage × GenState :=
  if st.input_pending_processing.length - st.samples_processed < 128 then
    (none, st)
  else
    let st' := gnsLoop st
    (some st'.dsp.next_signature, { st' with dsp := resetSignature st'.dsp })

/-- A 1025-bin frame that is `1` at bin 100 and `0` elsewhere: a synthetic
spectral spike used to exercise the peak recognizer. -/
def spikeVec : Nat → ℝ := fun k => if k = 100 then 1 else 0

/-- The all-zero frame. -/
def zeroVec : Nat → ℝ := fun _ => 0

/-- A DSP state whose FFT ring holds the spike frame 46 passes back and
silence everywhere else: the recognizer emits exactly one peak from it. -/
def stSpike : DspState :=
  { ring_buffer_of_samples := initRing 2048 0
    fft_outputs := ⟨fun i => if i = 0 then spikeVec else zeroVec, 46, 256, 46⟩
    spread_ffts_output := ⟨fun _ => zeroVec, 46, 256, 46⟩
    next_signature := ⟨16000, 0, []⟩ }

/-- Invariant carried by the recognizer: every band list is pass-sorted and
every recorded pass is at least 46 frames behind the spread ring's write
count `w`. -/
def BandsInv (w : Nat) (bands : List (FrequencyBand × List FrequencyPeak)) : Prop :=
  ∀ q ∈ bands,
    List.Chain' (fun a b : FrequencyPeak =>
      a.fft_pass_number ≤ b.fft_pass_number) q.2 ∧
    ∀ pk ∈ q.2, pk.fft_pass_number + 46 ≤ w

/-- The `BandsInv` invariant read off a DSP state. -/
def DspInv (st : DspState) : Prop :=
  BandsInv st.spread_ffts_output.num_written
    st.next_signature.frequency_band_to_sound_peaks

/-- Generator states reachable through the public API: the fresh generator,
feeding samples, and the state left behind by `get_next_signature`. -/
inductive Reach : GenState → Prop where
  | init : Reach initGen
  | feed (st : GenState) (samples : List Int) :
      Reach st → Reach (feed_input st samples)
  | next (st : GenState) : Reach st → Reach (get_next_signature st).2

/-- The monotone-pass-numbers property of a signature: every band's peak
list is non-decreasing in `fft_pass_number`. -/
structure BandsMono (sig : DecodedMessage) : Prop where
  mono : ∀ q ∈ sig.frequency_band_to_sound_peaks,
    List.Chain' (fun a b : FrequencyPeak =>
      a.fft_pass_number ≤ b.fft_pass_number) q.2

/-- A DSP state that has only ever seen silence: zero sample ring, FFT
frames at the `1e-10` floor or below, no peaks, 16 kHz signature. -/
def SilentDsp (st : DspState) : Prop :=
  (∀ i, st.ring_buffer_of_samples.buffer i = 0) ∧
  (∀ i k, st.fft_outputs.buffer i k ≤ 1 / 10 ^ 10) ∧
  st.next_signature.frequency_band_to_sound_peaks = [] ∧
  st.next_signature.sample_rate_hz = 16000

/-! # Theorems

First the byte-level toolbox, then the CRC-32 error-detection lemmas, then
the codec round-trip, and finally the generator claims. -/

/-! ## Byte-level lemmas -/

theorem length_toBytesLE (w n : Nat) : (toBytesLE w n).length = w := by
  induction w generalizing n with
  | zero => rfl
  | succ w ih => simp [toBytesLE, ih]

theorem mem_toBytesLE_lt {w n x : Nat} (h : x ∈ toBytesLE w n) : x < 256 := by
  induction w generalizing n with
  | zero => simp [toBytesLE] at h
  | succ w ih =>
    simp only [toBytesLE, List.mem_cons] at h
    rcases h with h | h
    · omega
    · exact ih h

theorem fromBytesLE_toBytesLE {w n : Nat} (h : n < 2 ^ (8 * w)) :
    fromBytesLE (toBytesLE w n) = n := by
  induction w generalizing n with
  | zero =>
    simp only [Nat.mul_zero, pow_zero, Nat.lt_one_iff] at h
    simp [toBytesLE, fromBytesLE, h]
  | succ w ih =>
    have hpow : 2 ^ (8 * (w + 1)) = 2 ^ (8 * w) * 256 := by
      rw [Nat.mul_succ, pow_add]; norm_num
    rw [hpow] at h
    simp only [toBytesLE, fromBytesLE]
    rw [ih (by omega)]
    omega

theorem fromBytesLE_lt {l : List Nat} (h : ∀ x ∈ l, x < 256) :
    fromBytesLE l < 2 ^ (8 * l.length) := by
  induction l with
  | nil => simp [fromBytesLE]
  | cons b bs ih =>
    have hb := h b (by simp)
    have hbs := ih fun x hx => h x (by simp [hx])
    have hpow : 2 ^ (8 * (bs.length + 1)) = 2 ^ (8 * bs.length) * 256 := by
      rw [Nat.mul_succ, pow_add]; norm_num
    simp only [fromBytesLE, List.length_cons, hpow]
    omega

theorem fromBytesLE_inj {l l' : List Nat} (hlen : l.length = l'.length)
    (h : ∀ x ∈ l, x < 256) (h' : ∀ x ∈ l', x < 256)
    (he : fromBytesLE l = fromBytesLE l') : l = l' := by
  induction l generalizing l' with
  | nil => cases l' <;> simp_all
  | cons b bs ih =>
    cases l' with
    | nil => simp at hlen
    | cons b' bs' =>
      simp only [fromBytesLE] at he
      have hb := h b (by simp)
      have hb' := h' b' (by simp)
      have hbs : bs.length = bs'.length := by simpa using hlen
      have heq : b = b' ∧ fromBytesLE bs = fromBytesLE bs' := by omega
      rw [heq.1, ih hbs (fun x hx => h x (by simp [hx]))
        (fun x hx => h' x (by simp [hx])) heq.2]

/-! ## CRC-32 detects single-bit errors -/

theorem crcBitStep_lt {c : Nat} (h : c < 2 ^ 32) : crcBitStep c < 2 ^ 32 := by
  unfold crcBitStep crcPoly
  split
  · exact Nat.xor_lt_two_pow (by omega) (by norm_num)
  · omega

theorem crcBitStep_testBit31 {c : Nat} (h : c < 2 ^ 32) :
    (crcBitStep c).testBit 31 = decide (c % 2 = 1) := by
  have h2 : c / 2 < 2 ^ 31 := by omega
  unfold crcBitStep crcPoly
  rcases Nat.mod_two_eq_zero_or_one c with h0 | h0
  · rw [if_neg (by omega)]
    simp [Nat.testBit_lt_two_pow h2, h0]
  · rw [if_pos h0, Nat.testBit_xor, Nat.testBit_lt_two_pow h2]
    simp only [h0, decide_eq_true_eq, Bool.false_bne]
    decide

theorem crcBitStep_inj {c c' : Nat} (h : c < 2 ^ 32) (h' : c' < 2 ^ 32)
    (he : crcBitStep c = crcBitStep c') : c = c' := by
  have hpar : c % 2 = c' % 2 := by
    have t1 := crcBitStep_testBit31 h
    have t2 := crcBitStep_testBit31 h'
    rw [he, t2] at t1
    rcases Nat.mod_two_eq_zero_or_one c with h0 | h0 <;>
      rcases Nat.mod_two_eq_zero_or_one c' with h1 | h1 <;> simp_all
  unfold crcBitStep at he
  rcases Nat.mod_two_eq_zero_or_one c with h0 | h0
  · rw [if_neg (by omega), if_neg (by omega)] at he
    omega
  · rw [if_pos (by omega), if_pos (by omega)] at he
    have : c / 2 = c' / 2 := by
      have := congrArg (· ^^^ crcPoly) he
      simpa [Nat.xor_cancel_right] using this
    omega

theorem crcIter_lt (n : Nat) {c : Nat} (h : c < 2 ^ 32) :
    crcBitStep^[n] c < 2 ^ 32 := by
  induction n generalizing c with
  | zero => simpa using h
  | succ n ih => rw [Function.iterate_succ_apply]; exact ih (crcBitStep_lt h)

theorem crcIter_inj (n : Nat) {c c' : Nat} (h : c < 2 ^ 32) (h' : c' < 2 ^ 32)
    (he : crcBitStep^[n] c = crcBitStep^[n] c') : c = c' := by
  induction n generalizing c c' with
  | zero => simpa using he
  | succ n ih =>
    rw [Function.iterate_succ_apply, Function.iterate_succ_apply] at he
    exact crcBitStep_inj h h' (ih (crcBitStep_lt h) (crcBitStep_lt h') he)

theorem crcByteStep_lt {c b : Nat} (hc : c < 2 ^ 32) (hb : b < 2 ^ 32) :
    crcByteStep c b < 2 ^ 32 :=
  crcIter_lt 8 (Nat.xor_lt_two_pow hc hb)

theorem crcByteStep_inj_state {b : Nat} (hb : b < 2 ^ 32) {c c' : Nat}
    (hc : c < 2 ^ 32) (hc' : c' < 2 ^ 32)
    (he : crcByteStep c b = crcByteStep c' b) : c = c' := by
  have := crcIter_inj 8 (Nat.xor_lt_two_pow hc hb) (Nat.xor_lt_two_pow hc' hb) he
  have := congrArg (· ^^^ b) this
  simpa [Nat.xor_cancel_right] using this

theorem crcByteStep_ne_byte {c b b' : Nat} (hc : c < 2 ^ 32) (hb : b < 2 ^ 32)
    (hb' : b' < 2 ^ 32) (hne : b ≠ b') : crcByteStep c b ≠ crcByteStep c b' := by
  intro he
  have hx := crcIter_inj 8 (Nat.xor_lt_two_pow hc hb) (Nat.xor_lt_two_pow hc hb') he
  apply hne
  have := congrArg (c ^^^ ·) hx
  simpa [← Nat.xor_assoc] using this

theorem crcFoldl_lt {l : List Nat} (h : ∀ x ∈ l, x < 2 ^ 32) {c : Nat}
    (hc : c < 2 ^ 32) : l.foldl crcByteStep c < 2 ^ 32 := by
  induction l generalizing c with
  | nil => simpa using hc
  | cons b bs ih =>
    simp only [List.foldl_cons]
    exact ih (fun x hx => h x (by simp [hx])) (crcByteStep_lt hc (h b (by simp)))

theorem crcFoldl_ne {l : List Nat} (h : ∀ x ∈ l, x < 2 ^ 32) {c c' : Nat}
    (hc : c < 2 ^ 32) (hc' : c' < 2 ^ 32) (hne : c ≠ c') :
    l.foldl crcByteStep c ≠ l.foldl crcByteStep c' := by
  induction l generalizing c c' with
  | nil => simpa using hne
  | cons b bs ih =>
    simp only [List.foldl_cons]
    have hb := h b (by simp)
    exact ih (fun x hx => h x (by simp [hx])) (crcByteStep_lt hc hb)
      (crcByteStep_lt hc' hb)
      (fun he => hne (crcByteStep_inj_state hb hc hc' he))

/-- CRC-32 distinguishes any two byte strings that differ in exactly one
byte: the heart of single-bit error detection. -/
theorem crc32_flip_ne {pre post : List Nat} {b b' : Nat}
    (hpre : ∀ x ∈ pre, x < 256) (hpost : ∀ x ∈ post, x < 256)
    (hb : b < 256) (hb' : b' < 256) (hne : b ≠ b') :
    crc32 (pre ++ b :: post) ≠ crc32 (pre ++ b' :: post) := by
  unfold crc32
  intro he
  have hlt : ∀ x ∈ pre, x < 2 ^ 32 := fun x hx => lt_trans (hpre x hx) (by norm_num)
  have hplt : ∀ x ∈ post, x < 2 ^ 32 := fun x hx => lt_trans (hpost x hx) (by norm_num)
  have hs : pre.foldl crcByteStep 0xFFFFFFFF < 2 ^ 32 := crcFoldl_lt hlt (by norm_num)
  have hstep : crcByteStep (pre.foldl crcByteStep 0xFFFFFFFF) b ≠
      crcByteStep (pre.foldl crcByteStep 0xFFFFFFFF) b' :=
    crcByteStep_ne_byte hs (lt_trans hb (by norm_num)) (lt_trans hb' (by norm_num)) hne
  have hcore : (pre ++ b :: post).foldl crcByteStep 0xFFFFFFFF ≠
      (pre ++ b' :: post).foldl crcByteStep 0xFFFFFFFF := by
    simp only [List.foldl_append, List.foldl_cons]
    exact crcFoldl_ne hplt
      (crcByteStep_lt hs (lt_trans hb (by norm_num)))
      (crcByteStep_lt hs (lt_trans hb' (by norm_num))) hstep
  apply hcore
  have := congrArg (· ^^^ (0xFFFFFFFF : Nat)) he
  simpa [Nat.xor_cancel_right] using this

theorem crc32_lt {l : List Nat} (h : ∀ x ∈ l, x < 256) : crc32 l < 2 ^ 32 := by
  unfold crc32
  exact Nat.xor_lt_two_pow
    (crcFoldl_lt (fun x hx => lt_trans (h x hx) (by norm_num)) (by norm_num))
    (by norm_num)

/-! ## Concatenation bookkeeping -/

theorem take_app_toBytes (w a : Nat) (l : List Nat) :
    (toBytesLE w a ++ l).take w = toBytesLE w a :=
  List.take_left' (length_toBytesLE w a)

theorem drop_app_toBytes (w a : Nat) (l : List Nat) :
    (toBytesLE w a ++ l).drop w = l :=
  List.drop_left' (length_toBytesLE w a)

theorem drop_app_replicate (n : Nat) (l : List Nat) :
    (List.replicate n 0 ++ l).drop n = l :=
  List.drop_left' (List.length_replicate n 0)

/-! ## Peak payload round trip -/

theorem parse_encode_peaks {sr : Nat} (l : List FrequencyPeak) (running : Nat)
    (hwf : PeaksWF sr l)
    (hrun : ∀ pk ∈ l.head?, running ≤ pk.fft_pass_number) :
    parseBandPeaks sr running (encodePeaksGo running l) = l := by
  induction l generalizing running with
  | nil => simp [encodePeaksGo, parseBandPeaks]
  | cons pk rest ih =>
    obtain ⟨hchain, hmem⟩ := hwf
    obtain ⟨hsr, hpass, hmag, hbin⟩ := hmem pk (by simp)
    rw [List.chain'_cons'] at hchain
    have hrest : PeaksWF sr rest := ⟨hchain.2, fun q hq => hmem q (by simp [hq])⟩
    have hrun1 : running ≤ pk.fft_pass_number := hrun pk (by simp)
    have htail : parseBandPeaks sr pk.fft_pass_number
        (encodePeaksGo pk.fft_pass_number rest) = rest :=
      ih pk.fft_pass_number hrest hchain.1
    -- the bytes following the delta byte: magnitude, frequency bin, rest
    have hYtake : (toBytesLE 2 pk.peak_magnitude ++
        (toBytesLE 2 pk.corrected_peak_frequency_bin ++
          encodePeaksGo pk.fft_pass_number rest)).take 2 =
        toBytesLE 2 pk.peak_magnitude := take_app_toBytes ..
    have hYdt : ((toBytesLE 2 pk.peak_magnitude ++
        (toBytesLE 2 pk.corrected_peak_frequency_bin ++
          encodePeaksGo pk.fft_pass_number rest)).drop 2).take 2 =
        toBytesLE 2 pk.corrected_peak_frequency_bin := by
      rw [drop_app_toBytes, take_app_toBytes]
    have hYd4 : (toBytesLE 2 pk.peak_magnitude ++
        (toBytesLE 2 pk.corrected_peak_frequency_bin ++
          encodePeaksGo pk.fft_pass_number rest)).drop 4 =
        encodePeaksGo pk.fft_pass_number rest := by
      rw [show (4 : Nat) = 2 + 2 from rfl, ← List.drop_drop,
        drop_app_toBytes, drop_app_toBytes]
    by_cases hm : running + 0xFF ≤ pk.fft_pass_number
    · -- absolute marker, then a zero-delta record
      rw [encodePeaksGo, if_pos hm]
      rw [parseBandPeaks, if_pos rfl]
      rw [List.append_assoc, take_app_toBytes, drop_app_toBytes,
        fromBytesLE_toBytesLE hpass]
      rw [parseBandPeaks, if_neg (by norm_num)]
      rw [hYtake, hYdt, hYd4, fromBytesLE_toBytesLE hmag, fromBytesLE_toBytesLE hbin,
        Nat.add_zero, htail]
      obtain ⟨p1, p2, p3, p4⟩ := pk
      simp_all
    · -- a plain delta record
      rw [encodePeaksGo, if_neg hm]
      rw [parseBandPeaks, if_neg (by omega), List.append_assoc]
      rw [hYtake, hYdt, hYd4, fromBytesLE_toBytesLE hmag, fromBytesLE_toBytesLE hbin,
        show running + (pk.fft_pass_number - running) = pk.fft_pass_number from by omega,
        htail]
      obtain ⟨p1, p2, p3, p4⟩ := pk
      simp_all

/-! ## The encoder emits genuine bytes -/

theorem mem_encodePeaksGo_lt {running : Nat} {l : List FrequencyPeak} {x : Nat}
    (h : x ∈ encodePeaksGo running l) : x < 256 := by
  induction l generalizing running with
  | nil => simp [encodePeaksGo] at h
  | cons pk rest ih =>
    rw [encodePeaksGo] at h
    split at h
    · simp only [List.mem_cons, List.mem_append] at h
      rcases h with rfl | h
      · norm_num
      rcases h with h | h
      · exact mem_toBytesLE_lt h
      rcases h with rfl | h
      · norm_num
      rcases h with (h | h) | h
      · exact mem_toBytesLE_lt h
      · exact mem_toBytesLE_lt h
      · exact ih h
    · rename_i hm
      simp only [List.mem_cons, List.mem_append] at h
      rcases h with rfl | h
      · omega
      rcases h with (h | h) | h
      · exact mem_toBytesLE_lt h
      · exact mem_toBytesLE_lt h
      · exact ih h

theorem mem_encodeBandSection_lt {it : FrequencyBand × List FrequencyPeak} {x : Nat}
    (h : x ∈ encodeBandSection it) : x < 256 := by
  rw [encodeBandSection] at h
  split at h
  · simp at h
  · simp only [List.mem_append, List.mem_replicate] at h
    rcases h with ((h | h) | h) | h
    · exact mem_toBytesLE_lt h
    · exact mem_toBytesLE_lt h
    · exact mem_encodePeaksGo_lt h
    · omega

theorem mem_encodeContents_lt {m : DecodedMessage} {x : Nat}
    (h : x ∈ encodeContents m) : x < 256 := by
  rw [encodeContents] at h
  rw [List.mem_flatMap] at h
  obtain ⟨it, _, hx⟩ := h
  exact mem_encodeBandSection_lt hx

theorem mem_rawBody_lt {sr : Nat} {ns : Int} {content : List Nat} {x : Nat}
    (hc : ∀ y ∈ content, y < 256) (h : x ∈ rawBody sr ns content) : x < 256 := by
  rw [rawBody] at h
  simp only [List.mem_append, List.mem_replicate] at h
  rcases h with ((((((((h | h) | h) | h) | h) | h) | h) | h) | h) | h
  · exact mem_toBytesLE_lt h
  · exact mem_toBytesLE_lt h
  · omega
  · exact mem_toBytesLE_lt h
  · omega
  · exact mem_toBytesLE_lt h
  · exact mem_toBytesLE_lt h
  · exact mem_toBytesLE_lt h
  · exact mem_toBytesLE_lt h
  · exact hc x h

theorem mem_encodeBody_lt {m : DecodedMessage} {x : Nat}
    (h : x ∈ encodeBody m) : x < 256 :=
  mem_rawBody_lt (fun _ hy => mem_encodeContents_lt hy) h

theorem mem_encode_lt {m : DecodedMessage} {x : Nat}
    (h : x ∈ encode_to_binary m) : x < 256 := by
  rw [encode_to_binary, rawMsg] at h
  simp only [List.mem_append] at h
  rcases h with (h | h) | h
  · exact mem_toBytesLE_lt h
  · exact mem_toBytesLE_lt h
  · exact mem_rawBody_lt (fun _ hy => mem_encodeContents_lt hy) h

/-! ## Length bookkeeping -/

theorem encodePeaksGo_length_le (running : Nat) (l : List FrequencyPeak) :
    (encodePeaksGo running l).length ≤ 10 * l.length := by
  induction l generalizing running with
  | nil => simp [encodePeaksGo]
  | cons pk rest ih =>
    have := ih pk.fft_pass_number
    rw [encodePeaksGo]
    split <;> simp only [List.length_cons, List.length_append, length_toBytesLE] <;> omega

theorem list_sum_le {l : List Nat} {B : Nat} (h : ∀ x ∈ l, x ≤ B) :
    l.sum ≤ l.length * B := by
  induction l with
  | nil => simp
  | cons a t ih =>
    have := h a (by simp)
    have := ih fun x hx => h x (by simp [hx])
    simp only [List.sum_cons, List.length_cons]
    calc a + t.sum ≤ B + t.length * B := by omega
    _ = (t.length + 1) * B := by ring

theorem encodeBandSection_length_le (it : FrequencyBand × List FrequencyPeak)
    (h : it.2.length < 2 ^ 26) :
    (encodeBandSection it).length ≤ 11 + 10 * 2 ^ 26 := by
  rw [encodeBandSection]
  split
  · simp
  · have hp := encodePeaksGo_length_le 0 it.2
    simp only [List.length_append, length_toBytesLE, List.length_replicate]
    omega

/-! ## Sorting the band dictionary -/

theorem insertBand_perm (x : FrequencyBand × List FrequencyPeak)
    (l : List (FrequencyBand × List FrequencyPeak)) :
    (insertBand x l).Perm (x :: l) := by
  induction l with
  | nil => exact .refl _
  | cons y ys ih =>
    rw [insertBand]
    split
    · exact .refl _
    · exact (ih.cons y).trans (List.Perm.swap x y ys)

theorem sortBands_perm (l : List (FrequencyBand × List FrequencyPeak)) :
    (sortBands l).Perm l := by
  induction l with
  | nil => exact .refl _
  | cons x xs ih =>
    exact (insertBand_perm x (sortBands xs)).trans (ih.cons x)

theorem mem_insertBand {z x : FrequencyBand × List FrequencyPeak}
    {l : List (FrequencyBand × List FrequencyPeak)} :
    z ∈ insertBand x l ↔ z = x ∨ z ∈ l := by
  rw [(insertBand_perm x l).mem_iff, List.mem_cons]

theorem insertBand_pairwise {x : FrequencyBand × List FrequencyPeak}
    {l : List (FrequencyBand × List FrequencyPeak)}
    (h : l.Pairwise fun a b => a.1.tag ≤ b.1.tag) :
    (insertBand x l).Pairwise fun a b => a.1.tag ≤ b.1.tag := by
  induction l with
  | nil => simp [insertBand]
  | cons y ys ih =>
    rw [insertBand]
    rw [List.pairwise_cons] at h
    split
    · rename_i hxy
      rw [List.pairwise_cons]
      refine ⟨fun z hz => ?_, List.pairwise_cons.mpr h⟩
      rcases List.mem_cons.mp hz with rfl | hz
      · exact hxy
      · exact le_trans hxy (h.1 z hz)
    · rename_i hxy
      rw [List.pairwise_cons]
      refine ⟨fun z hz => ?_, ih h.2⟩
      rcases mem_insertBand.mp hz with rfl | hz
      · exact le_of_not_le hxy
      · exact h.1 z hz

theorem sortBands_pairwise (l : List (FrequencyBand × List FrequencyPeak)) :
    (sortBands l).Pairwise fun a b => a.1.tag ≤ b.1.tag := by
  induction l with
  | nil => simp [sortBands]
  | cons x xs ih => exact insertBand_pairwise ih

theorem sortBands_eq_self {l : List (FrequencyBand × List FrequencyPeak)}
    (h : l.Pairwise fun a b => a.1.tag ≤ b.1.tag) : sortBands l = l := by
  induction l with
  | nil => rfl
  | cons x xs ih =>
    rw [List.pairwise_cons] at h
    show insertBand x (sortBands xs) = x :: xs
    rw [ih h.2]
    cases xs with
    | nil => rfl
    | cons y ys => rw [insertBand, if_pos (h.1 y (by simp))]

theorem sortBands_idem (l : List (FrequencyBand × List FrequencyPeak)) :
    sortBands (sortBands l) = sortBands l :=
  sortBands_eq_self (sortBands_pairwise l)

/-! ## Dictionary lemmas -/

theorem dictInsert_of_not_mem {K V : Type} [DecidableEq K] {k : K}
    {l : List (K × V)} (h : k ∉ l.map Prod.fst) (v : V) :
    dictInsert k v l = l ++ [(k, v)] := by
  induction l with
  | nil => rfl
  | cons y ys ih =>
    rw [dictInsert]
    rw [List.map_cons, List.mem_cons] at h
    rw [if_neg fun he => h (Or.inl he.symm), ih fun hm => h (Or.inr hm)]
    rfl

theorem perm_dictGetD {K V : Type} [DecidableEq K] {l l' : List (K × V)}
    (hp : l.Perm l') (hn : (l.map Prod.fst).Nodup) (k : K) (d : V) :
    dictGetD l k d = dictGetD l' k d := by
  induction hp with
  | nil => rfl
  | cons x _ ih =>
    rename_i t t' _
    show dictGetD (x :: t) k d = dictGetD (x :: t') k d
    rw [List.map_cons, List.nodup_cons] at hn
    simp only [dictGetD]
    split
    · rfl
    · exact ih hn.2
  | swap x y t =>
    show dictGetD (y :: x :: t) k d = dictGetD (x :: y :: t) k d
    have hxy : y.1 ≠ x.1 := by
      simp only [List.map_cons, List.nodup_cons, List.mem_cons] at hn
      exact fun he => hn.1 (Or.inl he)
    by_cases h1 : x.1 = k
    · have h2 : y.1 ≠ k := fun h2 => hxy (h2.trans h1.symm)
      simp [dictGetD, h1, h2]
    · by_cases h2 : y.1 = k <;> simp [dictGetD, h1, h2]
  | trans h1 _ ih1 ih2 =>
    rw [ih1 hn, ih2 (((h1.map Prod.fst).nodup_iff).mp hn)]

theorem perm_keys_mem {K V : Type} [DecidableEq K] {l l' : List (K × V)}
    (hp : l.Perm l') (k : K) : (k ∈ l.map Prod.fst) ↔ (k ∈ l'.map Prod.fst) :=
  (hp.map Prod.fst).mem_iff

/-! ## Band sections round trip -/

theorem bandWireId_lt (b : FrequencyBand) : bandWireId b < 2 ^ 32 := by
  cases b <;> decide

theorem bandOfTag_wire (b : FrequencyBand) :
    bandOfTag ((bandWireId b : Int) - 0x60030040) = some b := by
  cases b <;> decide

theorem parse_encode_sections {sr : Nat}
    (items : List (FrequencyBand × List FrequencyPeak)) :
    ∀ acc : List (FrequencyBand × List FrequencyPeak),
    (∀ it ∈ items, it.2 ≠ [] ∧ it.2.length < 2 ^ 26 ∧ PeaksWF sr it.2) →
    (∀ it ∈ items, it.1 ∉ acc.map Prod.fst) →
    (items.map Prod.fst).Nodup →
    parseBands sr acc (items.flatMap encodeBandSection) = .ok (acc ++ items) := by
  induction items with
  | nil => intro acc _ _ _; simp [parseBands]
  | cons it rest ih =>
    intro acc hwf hacc hnd
    obtain ⟨b, l⟩ := it
    obtain ⟨hne, hlen, hpwf⟩ := hwf (b, l) (by simp)
    have hplen : (encodePeaksGo 0 l).length < 2 ^ 32 := by
      have h1 := encodePeaksGo_length_le 0 l
      have hlen' : l.length < 2 ^ 26 := hlen
      omega
    rw [List.flatMap_cons]
    have hsec : encodeBandSection (b, l) =
        toBytesLE 4 (bandWireId b) ++ (toBytesLE 4 (encodePeaksGo 0 l).length ++
          (encodePeaksGo 0 l ++
            List.replicate ((4 - (encodePeaksGo 0 l).length % 4) % 4) 0)) := by
      rw [encodeBandSection, if_neg hne]
      simp [List.append_assoc]
    rw [hsec, List.append_assoc, List.append_assoc, List.append_assoc]
    -- the buffer seen by the band-section loop
    set Z : List Nat :=
      encodePeaksGo 0 l ++
        (List.replicate ((4 - (encodePeaksGo 0 l).length % 4) % 4) 0 ++
          rest.flatMap encodeBandSection) with hZ
    have hbufne : toBytesLE 4 (bandWireId b) ++
        (toBytesLE 4 (encodePeaksGo 0 l).length ++ Z) ≠ [] := by
      apply List.ne_nil_of_length_pos
      simp [length_toBytesLE]
    rw [parseBands, dif_neg hbufne]
    have ht4 : ((toBytesLE 4 (bandWireId b) ++
        (toBytesLE 4 (encodePeaksGo 0 l).length ++ Z)).take 8).take 4 =
        toBytesLE 4 (bandWireId b) := by
      rw [List.take_take]
      exact take_app_toBytes ..
    have ht4b : ((toBytesLE 4 (bandWireId b) ++
        (toBytesLE 4 (encodePeaksGo 0 l).length ++ Z)).take 8).drop 4 =
        toBytesLE 4 (encodePeaksGo 0 l).length := by
      rw [List.drop_take, drop_app_toBytes]
      exact take_app_toBytes ..
    have hrest : (toBytesLE 4 (bandWireId b) ++
        (toBytesLE 4 (encodePeaksGo 0 l).length ++ Z)).drop 8 = Z := by
      rw [show (8 : Nat) = 4 + 4 from rfl, ← List.drop_drop, drop_app_toBytes,
        drop_app_toBytes]
    simp only [ht4, ht4b, hrest, @fromBytesLE_toBytesLE 4 _ (bandWireId_lt b),
      @fromBytesLE_toBytesLE 4 _ hplen, bandOfTag_wire]
    have htakeZ : Z.take (encodePeaksGo 0 l).length = encodePeaksGo 0 l :=
      List.take_left' rfl
    have hdropZ : (Z.drop (encodePeaksGo 0 l).length).drop
        ((4 - (encodePeaksGo 0 l).length % 4) % 4) = rest.flatMap encodeBandSection := by
      rw [hZ, List.drop_left' rfl, drop_app_replicate]
    rw [htakeZ, hdropZ,
      parse_encode_peaks l 0 hpwf (fun q _ => Nat.zero_le _),
      dictInsert_of_not_mem (hacc (b, l) (by simp)) l]
    rw [List.map_cons, List.nodup_cons] at hnd
    rw [ih (acc ++ [(b, l)]) (fun q hq => hwf q (by simp [hq]))
      (fun q hq => by
        rw [List.map_append, List.mem_append]
        rintro (h | h)
        · exact hacc q (by simp [hq]) h
        · simp at h
          have hm1 : q.1 ∈ rest.map Prod.fst := List.mem_map_of_mem Prod.fst hq
          exact hnd.1 (h ▸ hm1)) hnd.2]
    rw [List.append_assoc]
    rfl

/-! ## Header fields of an encoded signature -/

theorem fromBytes4_eq {n : Nat} (h : n < 2 ^ 32) : fromBytesLE (toBytesLE 4 n) = n :=
  @fromBytesLE_toBytesLE 4 n h

theorem srId_le (hz : Nat) : srId hz ≤ 6 := by
  unfold srId
  repeat' split
  all_goals norm_num

theorem srShift_lt (hz : Nat) : srId hz <<< 27 < 2 ^ 32 := by
  rw [Nat.shiftLeft_eq]
  have := Nat.mul_le_mul_right (2 ^ 27) (srId_le hz)
  omega

theorem srShift_recover (hz : Nat) : (srId hz <<< 27) >>> 27 = srId hz := by
  rw [Nat.shiftLeft_eq, Nat.shiftRight_eq_div_pow]
  exact Nat.mul_div_cancel _ (by norm_num)

theorem srOfId_srId {hz : Nat}
    (h : hz = 8000 ∨ hz = 11025 ∨ hz = 16000 ∨ hz = 32000 ∨ hz = 44100 ∨ hz = 48000) :
    srOfId (srId hz) = some hz := by
  rcases h with rfl | rfl | rfl | rfl | rfl | rfl <;> rfl

theorem encodeContents_bound (m : DecodedMessage)
    (hnd : (m.frequency_band_to_sound_peaks.map Prod.fst).Nodup)
    (hb : ∀ it ∈ m.frequency_band_to_sound_peaks, it.2.length < 2 ^ 26) :
    (encodeContents m).length + 8 < 2 ^ 32 := by
  rw [encodeContents, List.length_flatMap]
  have hperm := sortBands_perm m.frequency_band_to_sound_peaks
  have hcount : (sortBands m.frequency_band_to_sound_peaks).length ≤ 5 := by
    rw [hperm.length_eq]
    have h2 := hnd.length_le_card
    simpa using h2
  have hsum := list_sum_le (l := (sortBands m.frequency_band_to_sound_peaks).map
      (List.length ∘ encodeBandSection)) (B := 11 + 10 * 2 ^ 26) ?bound
  case bound =>
    intro x hx
    rw [List.mem_map] at hx
    obtain ⟨it, hit, rfl⟩ := hx
    exact encodeBandSection_length_le it (hb it (hperm.mem_iff.mp hit))
  rw [List.length_map] at hsum
  have : (sortBands m.frequency_band_to_sound_peaks).length * (11 + 10 * 2 ^ 26) ≤
      5 * (11 + 10 * 2 ^ 26) := Nat.mul_le_mul_right _ hcount
  omega

theorem headerField_long {data : List Nat} (hlen : 48 ≤ data.length) {j : Nat}
    (hj : j + 4 ≤ 48) : headerField data j = fromBytesLE ((data.drop j).take 4) := by
  rw [headerField, headerBytes, show 48 - data.length = 0 from by omega]
  rw [List.replicate_zero, List.append_nil, List.drop_take, List.take_take,
    show min 4 (48 - j) = 4 from by omega]

/-! ## The decode-of-encode theorem -/

theorem rawBody_length (sr : Nat) (ns : Int) (content : List Nat) :
    (rawBody sr ns content).length = 48 + content.length := by
  rw [rawBody]
  simp only [List.length_append, length_toBytesLE, List.length_replicate]

theorem rawMsg_length (sr : Nat) (ns : Int) (content : List Nat) :
    (rawMsg sr ns content).length = 56 + content.length := by
  rw [rawMsg]
  simp only [List.length_append, length_toBytesLE, rawBody_length]
  omega

theorem decode_rawMsg (sr : Nat) (ns : Int) (content : List Nat)
    (hsr : sr = 8000 ∨ sr = 11025 ∨ sr = 16000 ∨ sr = 32000 ∨ sr = 44100 ∨ sr = 48000)
    (hn0 : 0 ≤ ns) (hnb : ns + srQuarter sr < 2 ^ 32)
    (hcb : ∀ x ∈ content, x < 256)
    (hclb : content.length + 8 < 2 ^ 32) :
    decode_from_binary (rawMsg sr ns content) =
      match parseBands sr [] content with
      | .error e => .error e
      | .ok bands => .ok ⟨sr, ns, bands⟩ := by
  have hq0 : (0 : Int) ≤ srQuarter sr := Int.ofNat_nonneg _
  have hbody_bytes : ∀ x ∈ rawBody sr ns content, x < 256 :=
    fun x hx => mem_rawBody_lt hcb hx
  have hcrc_lt : crc32 (rawBody sr ns content) < 2 ^ 32 := crc32_lt hbody_bytes
  have hdata : rawMsg sr ns content =
      toBytesLE 4 0xcafe2580 ++
        (toBytesLE 4 (crc32 (rawBody sr ns content)) ++ rawBody sr ns content) := by
    rw [rawMsg, List.append_assoc]
  have hbody : rawBody sr ns content =
      toBytesLE 4 (content.length + 8) ++ (toBytesLE 4 0x94119c00 ++
        (List.replicate 12 0 ++ (toBytesLE 4 (srId sr <<< 27) ++
          (List.replicate 8 0 ++
            (toBytesLE 4 (ns + srQuarter sr).toNat ++
              (toBytesLE 4 ((15 <<< 19) + 0x40000) ++ (toBytesLE 4 0x40000000 ++
                (toBytesLE 4 (content.length + 8) ++ content)))))))) := by
    rw [rawBody]
    simp only [List.append_assoc]
  have hblen : (rawBody sr ns content).length = 48 + content.length := by
    rw [hbody]
    simp only [List.length_append, length_toBytesLE, List.length_replicate]
    omega
  have hdlen : (rawMsg sr ns content).length = 56 + content.length := by
    rw [hdata]
    simp only [List.length_append, length_toBytesLE, hblen]
    omega
  have hlen48 : 48 ≤ (rawMsg sr ns content).length := by omega
  -- drops into the data
  have hd4 : (rawMsg sr ns content).drop 4 =
      toBytesLE 4 (crc32 (rawBody sr ns content)) ++ rawBody sr ns content := by
    rw [hdata, drop_app_toBytes]
  have hd8 : (rawMsg sr ns content).drop 8 = rawBody sr ns content := by
    rw [show (8 : Nat) = 4 + 4 from rfl, ← List.drop_drop, hd4, drop_app_toBytes]
  have hd12 : (rawMsg sr ns content).drop 12 = (rawBody sr ns content).drop 4 := by
    rw [show (12 : Nat) = 8 + 4 from rfl, ← List.drop_drop, hd8]
  have hb4 : (rawBody sr ns content).drop 4 = toBytesLE 4 0x94119c00 ++
      (List.replicate 12 0 ++ (toBytesLE 4 (srId sr <<< 27) ++
        (List.replicate 8 0 ++
          (toBytesLE 4 (ns + srQuarter sr).toNat ++
            (toBytesLE 4 ((15 <<< 19) + 0x40000) ++ (toBytesLE 4 0x40000000 ++
              (toBytesLE 4 (content.length + 8) ++ content))))))) := by
    rw [hbody, drop_app_toBytes]
  have hb8 : (rawBody sr ns content).drop 8 = List.replicate 12 0 ++
      (toBytesLE 4 (srId sr <<< 27) ++ (List.replicate 8 0 ++
        (toBytesLE 4 (ns + srQuarter sr).toNat ++
          (toBytesLE 4 ((15 <<< 19) + 0x40000) ++ (toBytesLE 4 0x40000000 ++
            (toBytesLE 4 (content.length + 8) ++ content)))))) := by
    rw [show (8 : Nat) = 4 + 4 from rfl, ← List.drop_drop, hb4, drop_app_toBytes]
  have hb20 : (rawBody sr ns content).drop 20 =
      toBytesLE 4 (srId sr <<< 27) ++ (List.replicate 8 0 ++
        (toBytesLE 4 (ns + srQuarter sr).toNat ++
          (toBytesLE 4 ((15 <<< 19) + 0x40000) ++ (toBytesLE 4 0x40000000 ++
            (toBytesLE 4 (content.length + 8) ++ content))))) := by
    rw [show (20 : Nat) = 8 + 12 from rfl, ← List.drop_drop, hb8, drop_app_replicate]
  have hb32 : (rawBody sr ns content).drop 32 =
      toBytesLE 4 (ns + srQuarter sr).toNat ++
        (toBytesLE 4 ((15 <<< 19) + 0x40000) ++ (toBytesLE 4 0x40000000 ++
          (toBytesLE 4 (content.length + 8) ++ content))) := by
    rw [show (32 : Nat) = 20 + 4 + 8 from rfl, ← List.drop_drop, ← List.drop_drop,
      hb20, drop_app_toBytes, drop_app_replicate]
  have hb40 : (rawBody sr ns content).drop 40 = toBytesLE 4 0x40000000 ++
      (toBytesLE 4 (content.length + 8) ++ content) := by
    rw [show (40 : Nat) = 32 + 4 + 4 from rfl, ← List.drop_drop, ← List.drop_drop,
      hb32, drop_app_toBytes, drop_app_toBytes]
  have hd28 : (rawMsg sr ns content).drop 28 = (rawBody sr ns content).drop 20 := by
    rw [show (28 : Nat) = 8 + 20 from rfl, ← List.drop_drop, hd8]
  have hd40 : (rawMsg sr ns content).drop 40 = (rawBody sr ns content).drop 32 := by
    rw [show (40 : Nat) = 8 + 32 from rfl, ← List.drop_drop, hd8]
  have hd48 : (rawMsg sr ns content).drop 48 = (rawBody sr ns content).drop 40 := by
    rw [show (48 : Nat) = 8 + 40 from rfl, ← List.drop_drop, hd8]
  -- the six header fields
  have hf0 : headerField (rawMsg sr ns content) 0 = 0xcafe2580 := by
    rw [headerField_long hlen48 (by norm_num), List.drop_zero, hdata,
      take_app_toBytes, fromBytes4_eq (by norm_num)]
  have hf4 : headerField (rawMsg sr ns content) 4 = crc32 (rawBody sr ns content) := by
    rw [headerField_long hlen48 (by norm_num), hd4, take_app_toBytes,
      fromBytes4_eq hcrc_lt]
  have hf8 : headerField (rawMsg sr ns content) 8 = content.length + 8 := by
    rw [headerField_long hlen48 (by norm_num), hd8, hbody, take_app_toBytes,
      fromBytes4_eq (by omega)]
  have hf12 : headerField (rawMsg sr ns content) 12 = 0x94119c00 := by
    rw [headerField_long hlen48 (by norm_num), hd12, hb4, take_app_toBytes,
      fromBytes4_eq (by norm_num)]
  have hf28 : headerField (rawMsg sr ns content) 28 = srId sr <<< 27 := by
    rw [headerField_long hlen48 (by norm_num), hd28, hb20, take_app_toBytes,
      fromBytes4_eq (srShift_lt _)]
  have hf40 : headerField (rawMsg sr ns content) 40 = (ns + srQuarter sr).toNat := by
    rw [headerField_long hlen48 (by norm_num), hd40, hb32, take_app_toBytes,
      fromBytes4_eq (by omega)]
  -- now run the decoder
  rw [decode_from_binary]
  simp only [hf0, hf4, hf8, hf12, hf28, hf40]
  rw [if_neg (by norm_num)]
  rw [if_neg (by rw [hdlen]; push_cast; omega)]
  rw [if_neg (by rw [hd8]; exact fun hne => hne rfl)]
  rw [if_neg (by norm_num)]
  simp only [srShift_recover, srOfId_srId hsr]
  rw [hd48, hb40, take_app_toBytes, fromBytes4_eq (by norm_num)]
  rw [if_neg (by norm_num)]
  rw [drop_app_toBytes, take_app_toBytes, fromBytes4_eq (by omega)]
  rw [if_neg (by rw [hdlen]; push_cast; omega)]
  rw [show ((toBytesLE 4 0x40000000 ++ (toBytesLE 4 (content.length + 8) ++
      content)).drop 8) = content from by
    rw [show (8 : Nat) = 4 + 4 from rfl, ← List.drop_drop, drop_app_toBytes,
      drop_app_toBytes]]
  have hns : ((ns + srQuarter sr).toNat : Int) - srQuarter sr = ns := by omega
  cases hp : parseBands sr [] content with
  | error e => simp only [hp]
  | ok bands => simp only [hp, hns]

theorem decode_encode_ok (m : DecodedMessage) (h : MsgWF m) :
    decode_from_binary (encode_to_binary m) =
      .ok ⟨m.sample_rate_hz, m.number_samples,
        sortBands m.frequency_band_to_sound_peaks⟩ := by
  obtain ⟨hsr, hn0, hnb, hnd, hbands⟩ := h
  rw [encode_to_binary,
    decode_rawMsg m.sample_rate_hz m.number_samples (encodeContents m) hsr hn0 hnb
      (fun x hx => mem_encodeContents_lt hx)
      (encodeContents_bound m hnd fun it hit => (hbands it hit).2.1)]
  rw [encodeContents,
    parse_encode_sections (sortBands m.frequency_band_to_sound_peaks) []
      (fun it hit => hbands it ((sortBands_perm _).mem_iff.mp hit))
      (fun it _ => by simp)
      ((((sortBands_perm _).map Prod.fst).nodup_iff).mpr hnd)]
  rfl

/-! ## Encoding is stable on the canonical form -/

theorem encodeContents_canon (m : DecodedMessage) :
    encodeContents (canon m) = encodeContents m := by
  show (sortBands (sortBands m.frequency_band_to_sound_peaks)).flatMap
      encodeBandSection = _
  rw [sortBands_idem]
  rfl

theorem encode_canon (m : DecodedMessage) :
    encode_to_binary (canon m) = encode_to_binary m := by
  have h1 : (canon m).sample_rate_hz = m.sample_rate_hz := rfl
  have h2 : (canon m).number_samples = m.number_samples := rfl
  rw [encode_to_binary, encode_to_binary, encodeContents_canon, h1, h2]

/-! ## Single-bit flips and the decoder -/

theorem length_flipBit (data : List Nat) (i k : Nat) :
    (flipBit data i k).length = data.length := by
  simp [flipBit]

theorem take_drop_set_of_le (data : List Nat) (v i j w : Nat) (h : j + w ≤ i) :
    ((data.set i v).drop j).take w = (data.drop j).take w := by
  apply List.ext_getElem?
  intro n
  rw [List.getElem?_take, List.getElem?_take]
  split
  · rename_i hn
    rw [List.getElem?_drop, List.getElem?_drop, List.getElem?_set_ne (by omega)]
  · rfl

theorem headerField_flip_eq {data : List Nat} (hlen : 48 ≤ data.length)
    {i j k : Nat} (hj : j + 4 ≤ 48) (hij : j + 4 ≤ i) :
    headerField (flipBit data i k) j = headerField data j := by
  rw [headerField_long (by rw [length_flipBit]; exact hlen) hj,
    headerField_long hlen hj, flipBit, take_drop_set_of_le data _ i j 4 hij]

/-- Flipping one bit of a byte changes it. -/
theorem xor_pow_ne (b k : Nat) : b ^^^ 2 ^ k ≠ b := by
  intro he
  have h2 : (2 : Nat) ^ k = 0 := by
    have := congrArg (b ^^^ ·) he
    simpa [← Nat.xor_assoc] using this
  exact absurd h2 (by positivity)

theorem xor_pow_lt {b k : Nat} (h : b < 256) (hk : k < 8) : b ^^^ 2 ^ k < 256 := by
  have h8 : (256 : Nat) = 2 ^ 8 := by norm_num
  rw [h8] at h ⊢
  exact Nat.xor_lt_two_pow h (Nat.pow_lt_pow_right (by norm_num) hk)

/-- Flipping a bit inside the u32 field at byte offset 8 changes the parsed
field value. -/
theorem headerField8_flip_ne {data : List Nat} (hlen : 48 ≤ data.length)
    (hb : ∀ x ∈ data, x < 256) {i k : Nat} (h8 : 8 ≤ i) (h12 : i < 12)
    (hk : k < 8) : headerField (flipBit data i k) 8 ≠ headerField data 8 := by
  have hfl : 48 ≤ (flipBit data i k).length := by rw [length_flipBit]; exact hlen
  rw [headerField_long hfl (by norm_num), headerField_long hlen (by norm_num)]
  have hi : i < data.length := by omega
  have hdv : data.getD i 0 = data[i] := by
    rw [List.getD_eq_getElem?_getD, List.getElem?_eq_getElem hi]
    rfl
  have hv : data.getD i 0 ^^^ 1 <<< k < 256 := by
    rw [Nat.one_shiftLeft, hdv]
    exact xor_pow_lt (hb _ (List.getElem_mem hi)) hk
  intro he
  have hW := @fromBytesLE_inj (((flipBit data i k).drop 8).take 4)
    ((data.drop 8).take 4) ?len ?b1 ?b2 he
  case len =>
    rw [List.length_take, List.length_take, List.length_drop, List.length_drop,
      length_flipBit]
  case b1 =>
    intro x hx
    have hx' := List.mem_of_mem_drop (List.mem_of_mem_take hx)
    rcases List.mem_or_eq_of_mem_set hx' with hmem | rfl
    · exact hb x hmem
    · exact hv
  case b2 =>
    intro x hx
    exact hb x (List.mem_of_mem_drop (List.mem_of_mem_take hx))
  -- yet the windows differ at position i - 8
  have hg1 : (((flipBit data i k).drop 8).take 4)[i - 8]? =
      some (data.getD i 0 ^^^ 1 <<< k) := by
    rw [List.getElem?_take, if_pos (by omega), List.getElem?_drop,
      show 8 + (i - 8) = i from by omega, flipBit, List.getElem?_set_self',
      List.getElem?_eq_getElem hi]
    rfl
  have hg2 : (((data.drop 8)).take 4)[i - 8]? = some data[i] := by
    rw [List.getElem?_take, if_pos (by omega), List.getElem?_drop,
      show 8 + (i - 8) = i from by omega, List.getElem?_eq_getElem hi]
  rw [hW, hg2] at hg1
  have : data[i] ^^^ 2 ^ k = data[i] := by
    have := Option.some.inj hg1
    rw [hdv, Nat.one_shiftLeft] at this
    exact this.symm
  exact xor_pow_ne data[i] k this

/-- Decomposing the checksummed tail of a message at a flipped byte. -/
theorem drop8_decomp {data : List Nat} {i : Nat} (h8 : 8 ≤ i)
    (hi : i < data.length) (v : Nat) :
    (data.set i v).drop 8 = (data.take i).drop 8 ++ v :: data.drop (i + 1) ∧
      data.drop 8 = (data.take i).drop 8 ++ data.getD i 0 :: data.drop (i + 1) := by
  have htl : (data.take i).length = i := by
    rw [List.length_take]
    omega
  constructor
  · rw [List.set_eq_take_append_cons_drop, if_pos hi,
      List.drop_append_eq_append_drop, htl, show 8 - i = 0 from by omega,
      List.drop_zero]
  · conv_lhs => rw [← List.take_append_drop i data]
    rw [List.drop_append_eq_append_drop, htl, show 8 - i = 0 from by omega,
      List.drop_zero, List.drop_eq_getElem_cons hi]
    congr 2
    rw [List.getD_eq_getElem?_getD, List.getElem?_eq_getElem hi]
    rfl

/-- Flipping any bit at byte offset 12 or later changes the CRC-32 of the
checksummed tail. -/
theorem crc32_drop8_flip_ne {data : List Nat} (hb : ∀ x ∈ data, x < 256)
    {i k : Nat} (h12 : 12 ≤ i) (hi : i < data.length) (hk : k < 8) :
    crc32 ((flipBit data i k).drop 8) ≠ crc32 (data.drop 8) := by
  obtain ⟨h1, h2⟩ := drop8_decomp (by omega) hi (data.getD i 0 ^^^ 1 <<< k)
  have hdv : data.getD i 0 = data[i] := by
    rw [List.getD_eq_getElem?_getD, List.getElem?_eq_getElem hi]
    rfl
  rw [flipBit, h1, h2]
  apply crc32_flip_ne
  · intro x hx
    exact hb x (List.mem_of_mem_take (List.mem_of_mem_drop hx))
  · intro x hx
    exact hb x (List.mem_of_mem_drop hx)
  · rw [hdv, Nat.one_shiftLeft]
    exact xor_pow_lt (hb _ (List.getElem_mem hi)) hk
  · rw [hdv]
    exact hb _ (List.getElem_mem hi)
  · rw [hdv, Nat.one_shiftLeft]
    exact xor_pow_ne data[i] k

/-- The effect of a single-bit flip at any byte offset in `[8, len)` on
decoding: a flip inside the size field (offsets 8–11) is caught by the size
assert, and any later flip is caught by the CRC-32 assert. -/
theorem decode_flip (data : List Nat) (m : DecodedMessage) (i k : Nat)
    (hok : decode_from_binary data = .ok m) (hb : ∀ x ∈ data, x < 256)
    (h8 : 8 ≤ i) (hi : i < data.length) (hk : k < 8) :
    decode_from_binary (flipBit data i k) =
      .error (if i < 12 then .sizeMismatch else .checksumMismatch) := by
  simp only [decode_from_binary] at hok
  have h0 : ¬(headerField data 0 ≠ 0xcafe2580) := fun hc => by
    rw [if_pos hc] at hok
    exact Except.noConfusion hok
  rw [if_neg h0] at hok
  have h1 : ¬((headerField data 8 : Int) ≠ (data.length : Int) - 48) := fun hc => by
    rw [if_pos hc] at hok
    exact Except.noConfusion hok
  rw [if_neg h1] at hok
  have h2 : ¬(crc32 (data.drop 8) ≠ headerField data 4) := fun hc => by
    rw [if_pos hc] at hok
    exact Except.noConfusion hok
  push_neg at h1
  push_neg at h2
  have hlen48 : 48 ≤ data.length := by
    have hnn : (0 : Int) ≤ headerField data 8 := Int.ofNat_nonneg _
    omega
  simp only [decode_from_binary]
  rw [headerField_flip_eq hlen48 (by norm_num) (by omega), if_neg h0]
  by_cases hlt : i < 12
  · rw [if_pos ?cond, if_pos hlt]
    case cond =>
      rw [length_flipBit, ← h1]
      have hne := headerField8_flip_ne hlen48 hb h8 hlt hk
      exact_mod_cast hne
  · rw [headerField_flip_eq hlen48 (by norm_num) (by omega), length_flipBit,
      if_neg (by rw [← h1]; exact fun hc => hc rfl)]
    rw [headerField_flip_eq hlen48 (by norm_num) (by omega)]
    rw [if_pos ?cond2, if_neg hlt]
    case cond2 =>
      rw [← h2]
      exact crc32_drop8_flip_ne hb (by omega) hi hk

/-! ## Decoding the probe messages -/

theorem parse_one_empty_band (bid : Nat) (hb : bid < 2 ^ 32) :
    parseBands 16000 [] (toBytesLE 4 bid ++ toBytesLE 4 0) =
      match bandOfTag ((bid : Int) - 0x60030040) with
      | none => .error .unknownBand
      | some band => .ok [(band, [])] := by
  have hne : toBytesLE 4 bid ++ toBytesLE 4 0 ≠ [] := by
    apply List.ne_nil_of_length_pos
    simp [length_toBytesLE]
  rw [parseBands, dif_neg hne]
  have h1 : ((toBytesLE 4 bid ++ toBytesLE 4 0).take 8).take 4 = toBytesLE 4 bid := by
    rw [List.take_take, show min 4 8 = 4 from rfl, take_app_toBytes]
  have h2 : ((toBytesLE 4 bid ++ toBytesLE 4 0).take 8).drop 4 = toBytesLE 4 0 := by
    rw [List.drop_take, drop_app_toBytes]
    exact List.take_of_length_le (by rw [length_toBytesLE])
  have h3 : (toBytesLE 4 bid ++ toBytesLE 4 0).drop 8 = [] := by
    rw [show (8 : Nat) = 4 + 4 from rfl, ← List.drop_drop, drop_app_toBytes]
    exact List.drop_eq_nil_of_le (by rw [length_toBytesLE])
  simp only [h1, h2, h3, fromBytes4_eq hb, @fromBytesLE_toBytesLE 4 0 (by norm_num)]
  cases hbt : bandOfTag ((bid : Int) - 0x60030040) with
  | none => rfl
  | some band =>
    simp only [List.take_nil, List.drop_nil]
    rw [parseBandPeaks]
    rw [show dictInsert band ([] : List FrequencyPeak) [] = [(band, [])] from rfl]
    rw [parseBands]
    simp

theorem decode_mkBandMsg (bid : Nat) (hb : bid < 2 ^ 32) :
    decode_from_binary (mkBandMsg bid) =
      match bandOfTag ((bid : Int) - 0x60030040) with
      | none => .error .unknownBand
      | some band => .ok ⟨16000, 0, [(band, [])]⟩ := by
  rw [mkBandMsg, decode_rawMsg 16000 0 _ (by norm_num) (by norm_num)
    (by norm_num [srQuarter])
    (fun x hx => by
      rcases List.mem_append.mp hx with h | h
      · exact mem_toBytesLE_lt h
      · exact mem_toBytesLE_lt h)
    (by simp [length_toBytesLE])]
  rw [parse_one_empty_band bid hb]
  cases bandOfTag ((bid : Int) - 0x60030040) <;> rfl

theorem parse_trunc (psize : Nat) (h4 : 4 < psize) (hps : psize < 2 ^ 32) :
    parseBands 16000 []
      (toBytesLE 4 0x60030040 ++ toBytesLE 4 psize ++ [7, 9, 0, 3]) =
      .ok [(.band_250_520, [⟨7, 9, 3, 16000⟩])] := by
  rw [List.append_assoc]
  have hne : toBytesLE 4 0x60030040 ++ (toBytesLE 4 psize ++ [7, 9, 0, 3]) ≠ [] := by
    apply List.ne_nil_of_length_pos
    simp [length_toBytesLE]
  rw [parseBands, dif_neg hne]
  have h1 : ((toBytesLE 4 0x60030040 ++ (toBytesLE 4 psize ++ [7, 9, 0, 3])).take 8).take 4 =
      toBytesLE 4 0x60030040 := by
    rw [List.take_take, show min 4 8 = 4 from rfl, take_app_toBytes]
  have h2 : ((toBytesLE 4 0x60030040 ++ (toBytesLE 4 psize ++ [7, 9, 0, 3])).take 8).drop 4 =
      toBytesLE 4 psize := by
    rw [List.drop_take, drop_app_toBytes, List.take_append_eq_append_take,
      List.take_of_length_le (by rw [length_toBytesLE]),
      show 4 - (toBytesLE 4 psize).length = 0 from by rw [length_toBytesLE],
      List.take_zero, List.append_nil]
  have h3 : (toBytesLE 4 0x60030040 ++ (toBytesLE 4 psize ++ [7, 9, 0, 3])).drop 8 =
      [7, 9, 0, 3] := by
    rw [show (8 : Nat) = 4 + 4 from rfl, ← List.drop_drop, drop_app_toBytes,
      drop_app_toBytes]
  simp only [h1, h2, h3, fromBytes4_eq (by norm_num : (0x60030040 : Nat) < 2 ^ 32),
    fromBytes4_eq hps]
  rw [show ((0x60030040 : Nat) : Int) - 0x60030040 = 0 from by norm_num]
  rw [show bandOfTag 0 = some .band_250_520 from rfl]
  simp only []
  rw [List.take_of_length_le (by simp; omega),
    List.drop_eq_nil_of_le (by simp; omega)]
  rw [show parseBandPeaks 16000 0 [7, 9, 0, 3] =
      [(⟨7, 9, 3, 16000⟩ : FrequencyPeak)] from by
    simp [parseBandPeaks, fromBytesLE]]
  rw [show dictInsert FrequencyBand.band_250_520
      [(⟨7, 9, 3, 16000⟩ : FrequencyPeak)]
      ([] : List (FrequencyBand × List FrequencyPeak)) =
      [(FrequencyBand.band_250_520, [(⟨7, 9, 3, 16000⟩ : FrequencyPeak)])] from rfl]
  rw [parseBands]
  simp

theorem decode_mkTrunc (psize : Nat) (h4 : 4 < psize) (hps : psize < 2 ^ 32) :
    decode_from_binary (mkTruncMsg psize) = .ok truncPeakMsg := by
  rw [mkTruncMsg, decode_rawMsg 16000 0 _ (by norm_num) (by norm_num)
    (by norm_num [srQuarter])
    (fun x hx => by
      rcases List.mem_append.mp hx with h | h
      · rcases List.mem_append.mp h with h' | h'
        · exact mem_toBytesLE_lt h'
        · exact mem_toBytesLE_lt h'
      · simp at h
        rcases h with rfl | rfl | rfl | rfl <;> norm_num)
    (by simp [length_toBytesLE])]
  rw [parse_trunc psize h4 hps]
  rfl

/-! ## The claims about the codec -/

/-- C1 (amended): for every well-formed signature `m`,
`decode_from_binary (encode_to_binary m)` succeeds and yields the canonical
form of `m` — the same `sample_rate_hz`, the same `number_samples`, and the
same band-to-peak-list dictionary (same keys, same value at every key) —
and re-encoding that decoded signature reproduces the original bytes
byte-for-byte.  (The unrestricted second direction of the claim,
`encode (decode b) = b` for every accepted `b`, is refuted by
`codec_round_trip_cex`: the decoder also accepts non-canonical byte strings,
e.g. with an explicitly empty band section, which the encoder never
emits.) -/
theorem codec_round_trip (m : DecodedMessage) (h : MsgWF m) :
    decode_from_binary (encode_to_binary m) = .ok (canon m) ∧
    (canon m).sample_rate_hz = m.sample_rate_hz ∧
    (canon m).number_samples = m.number_samples ∧
    (∀ b : FrequencyBand,
      dictGetD (canon m).frequency_band_to_sound_peaks b [] =
        dictGetD m.frequency_band_to_sound_peaks b [] ∧
      (b ∈ (canon m).frequency_band_to_sound_peaks.map Prod.fst ↔
        b ∈ m.frequency_band_to_sound_peaks.map Prod.fst)) ∧
    encode_to_binary (canon m) = encode_to_binary m := by
  refine ⟨decode_encode_ok m h, rfl, rfl, fun b => ⟨?_, ?_⟩, encode_canon m⟩
  · exact perm_dictGetD (sortBands_perm _)
      ((((sortBands_perm _).map Prod.fst).nodup_iff).mpr h.2.2.2.1) b []
  · exact perm_keys_mem (sortBands_perm _) b

/-- C1 witness: the round trip at the concrete two-band signature `msgEx`. -/
theorem codec_round_trip_witness :
    MsgWF msgEx ∧
    (decode_from_binary (encode_to_binary msgEx) = .ok (canon msgEx) ∧
      (canon msgEx).sample_rate_hz = msgEx.sample_rate_hz ∧
      (canon msgEx).number_samples = msgEx.number_samples ∧
      (∀ b : FrequencyBand,
        dictGetD (canon msgEx).frequency_band_to_sound_peaks b [] =
          dictGetD msgEx.frequency_band_to_sound_peaks b [] ∧
        (b ∈ (canon msgEx).frequency_band_to_sound_peaks.map Prod.fst ↔
          b ∈ msgEx.frequency_band_to_sound_peaks.map Prod.fst)) ∧
      encode_to_binary (canon msgEx) = encode_to_binary msgEx) :=
  ⟨by decide, codec_round_trip msgEx (by decide)⟩

/-- C1 counterexample: a byte string with an explicitly empty band section
decodes successfully, but re-encoding the decoded signature does not
reproduce it (the encoder skips empty bands), refuting the unrestricted
`encode (decode b) = b` direction of the claim. -/
theorem codec_round_trip_cex :
    decode_from_binary (mkBandMsg 0x60030040) =
      .ok ⟨16000, 0, [(.band_250_520, [])]⟩ ∧
    encode_to_binary ⟨16000, 0, [(.band_250_520, [])]⟩ ≠ mkBandMsg 0x60030040 := by
  constructor
  · rw [decode_mkBandMsg 0x60030040 (by norm_num)]
    rfl
  · -- the encoder skips the empty band: 56 bytes against 64
    intro he
    have hlen := congrArg List.length he
    rw [encode_to_binary, mkBandMsg, rawMsg_length, rawMsg_length,
      show encodeContents ⟨16000, 0, [(.band_250_520, [])]⟩ = [] from rfl] at hlen
    simp [length_toBytesLE] at hlen

/-- C4: the absolute-marker encoding rule.  For a peak list with
non-decreasing pass numbers starting at or above the running counter, the
source encoder's band payload is exactly the claim's description — `0xFF`,
the pass number as little-endian u32, and a zero delta byte before any peak
that exceeds the running counter by `255` or more, and a single delta byte
in `[0, 0xFE]` followed by the u16 magnitude and u16 bin otherwise — with
the running counter updated to the peak's pass number after each record. -/
theorem absolute_marker_encoding (peaks : List FrequencyPeak) (running : Nat)
    (hchain : List.Chain' (fun a b => a.fft_pass_number ≤ b.fft_pass_number) peaks)
    (hrun : ∀ pk ∈ peaks.head?, running ≤ pk.fft_pass_number) :
    encodePeaksGo running peaks = claimEncodePeaks running peaks ∧
      DeltasInRange running peaks := by
  induction peaks generalizing running with
  | nil => exact ⟨rfl, trivial⟩
  | cons pk rest ih =>
    rw [List.chain'_cons'] at hchain
    have hrun1 : running ≤ pk.fft_pass_number := hrun pk (by simp)
    have ihr := ih pk.fft_pass_number hchain.2 hchain.1
    rw [encodePeaksGo, claimEncodePeaks, claimPeakBytes, DeltasInRange]
    by_cases hm : running + 0xFF ≤ pk.fft_pass_number
    · rw [if_pos hm, if_pos (by push_cast; omega)]
      refine ⟨?_, Or.inl (by push_cast; omega), ihr.2⟩
      rw [← ihr.1]
      simp [List.append_assoc]
    · rw [if_neg hm, if_neg (by push_cast; omega)]
      refine ⟨?_, Or.inr (by push_cast; omega), ihr.2⟩
      rw [← ihr.1, show ((pk.fft_pass_number : Int) - running).toNat =
        pk.fft_pass_number - running from by omega]
      simp [List.append_assoc]

/-- C4 witness: the encoding rule at the concrete peaks `pkA`, `pkB`, whose
pass numbers 10 and 400 force an absolute marker before the second peak. -/
theorem absolute_marker_witness :
    (List.Chain' (fun a b => a.fft_pass_number ≤ b.fft_pass_number) [pkA, pkB]) ∧
    (encodePeaksGo 0 [pkA, pkB] = claimEncodePeaks 0 [pkA, pkB] ∧
      DeltasInRange 0 [pkA, pkB]) :=
  ⟨by decide,
    absolute_marker_encoding [pkA, pkB] 0 (by decide) fun pk _ => Nat.zero_le _⟩

/-- C5 (amended): flipping any single bit of an accepted message at a byte
offset in `[12, len)` makes decoding fail with `checksumMismatch`; flipping
a bit at offsets 8–11 (the `size_minus_header` field, which the source
checks *before* the CRC) makes decoding fail with `sizeMismatch` instead.
(The claim as stated — `checksumMismatch` for every offset in `[8, len)` —
is refuted by `crc_flip_cex`.) -/
theorem crc_flip_detect (data : List Nat) (m : DecodedMessage) (i k : Nat)
    (hok : decode_from_binary data = .ok m) (hb : ∀ x ∈ data, x < 256)
    (h8 : 8 ≤ i) (hi : i < data.length) (hk : k < 8) :
    (12 ≤ i → decode_from_binary (flipBit data i k) = .error .checksumMismatch) ∧
    (i < 12 → decode_from_binary (flipBit data i k) = .error .sizeMismatch) := by
  have h := decode_flip data m i k hok hb h8 hi hk
  constructor
  · intro h12
    rw [h, if_neg (by omega)]
  · intro h12
    rw [h, if_pos h12]

/-- C5 witness: bit 3 of byte 20 of the encoded `msgEx`. -/
theorem crc_flip_witness :
    (decode_from_binary bytesEx = .ok (canon msgEx) ∧
      (8 : Nat) ≤ 20 ∧ 20 < bytesEx.length ∧ (3 : Nat) < 8) ∧
    ((12 : Nat) ≤ 20 →
      decode_from_binary (flipBit bytesEx 20 3) = .error .checksumMismatch) ∧
    ((20 : Nat) < 12 →
      decode_from_binary (flipBit bytesEx 20 3) = .error .sizeMismatch) :=
  ⟨⟨decode_encode_ok msgEx (by decide), by decide, by decide, by decide⟩,
    crc_flip_detect bytesEx (canon msgEx) 20 3 (decode_encode_ok msgEx (by decide))
      (fun _ hx => mem_encode_lt hx) (by decide) (by decide) (by decide)⟩

/-- C5 counterexample: flipping bit 0 of byte 8 of the encoded `msgEx`
makes decoding fail with `sizeMismatch`, not `checksumMismatch` as the
claim states for every offset in `[8, len)`. -/
theorem crc_flip_cex :
    decode_from_binary bytesEx = .ok (canon msgEx) ∧
    decode_from_binary (flipBit bytesEx 8 0) = .error .sizeMismatch ∧
    DecodeError.sizeMismatch ≠ DecodeError.checksumMismatch := by
  refine ⟨decode_encode_ok msgEx (by decide), ?_, by decide⟩
  have h := decode_flip bytesEx (canon msgEx) 8 0 (decode_encode_ok msgEx (by decide))
    (fun _ hx => mem_encode_lt hx) (by decide) (by decide) (by decide)
  rw [h, if_pos (by norm_num)]

/-- C6 (amended): a band section whose tag `band_id - 0x60030040` is not in
`{-1, 0, 1, 2, 3}` makes decoding fail with `unknownBand`; but the tag `-1`
(band id `0x6003003F`) is a valid `FrequencyBand` member in the source, so
such a message decodes *successfully* into the `0–250 Hz` band.  (The claim
as stated — an error for tag `-1` — is refuted by `unknown_band_cex`.) -/
theorem unknown_band_decode (bid : Nat) (hb : bid < 2 ^ 32) :
    ((bid : Int) - 0x60030040 ∉ ([-1, 0, 1, 2, 3] : List Int) →
      decode_from_binary (mkBandMsg bid) = .error .unknownBand) ∧
    decode_from_binary (mkBandMsg 0x6003003F) =
      .ok ⟨16000, 0, [(.band_0_250, [])]⟩ := by
  constructor
  · intro hno
    rw [decode_mkBandMsg bid hb]
    have hnone : bandOfTag ((bid : Int) - 0x60030040) = none := by
      simp only [List.mem_cons, List.not_mem_nil, or_false, not_or] at hno
      obtain ⟨n1, n2, n3, n4, n5⟩ := hno
      unfold bandOfTag
      rw [if_neg n1, if_neg n2, if_neg n3, if_neg n4, if_neg n5]
    rw [hnone]
  · rw [decode_mkBandMsg 0x6003003F (by norm_num)]
    rfl

/-- C6 witness: band id `0x60030044` (tag 4) is rejected as `unknownBand`. -/
theorem unknown_band_witness :
    ((0x60030044 : Nat) < 2 ^ 32 ∧
      ((0x60030044 : Nat) : Int) - 0x60030040 ∉ ([-1, 0, 1, 2, 3] : List Int)) ∧
    decode_from_binary (mkBandMsg 0x60030044) = .error .unknownBand :=
  ⟨⟨by norm_num, by decide⟩,
    (unknown_band_decode 0x60030044 (by norm_num)).1 (by decide)⟩

/-- C6 counterexample: band id `0x6003003F` (tag `-1`) decodes successfully
— `FrequencyBand(-1)` is the source's `_0_250` member — contradicting the
claim that it results in an `UnknownBand` decode error. -/
theorem unknown_band_cex :
    decode_from_binary (mkBandMsg 0x6003003F) =
      .ok ⟨16000, 0, [(.band_0_250, [])]⟩ ∧
    decode_from_binary (mkBandMsg 0x6003003F) ≠ .error .unknownBand := by
  have hok : decode_from_binary (mkBandMsg 0x6003003F) =
      .ok ⟨16000, 0, [(.band_0_250, [])]⟩ := by
    rw [decode_mkBandMsg 0x6003003F (by norm_num)]
    rfl
  exact ⟨hok, by rw [hok]; exact fun hc => Except.noConfusion hc⟩

/-- C7 (amended): a band section whose declared payload length exceeds the
remaining buffer does *not* fail: `BytesIO.read` silently returns the bytes
that are left, the decoder parses them, and decoding succeeds.  The source
has no `Truncated` error at all.  (The claim as stated — a `Truncated`
decode error — is refuted by `truncated_band_cex`.) -/
theorem truncated_band_decodes (psize : Nat) (h4 : 4 < psize)
    (hps : psize < 2 ^ 32) :
    decode_from_binary (mkTruncMsg psize) = .ok truncPeakMsg :=
  decode_mkTrunc psize h4 hps

/-- C7 witness: declared payload length 100 with 4 bytes remaining. -/
theorem truncated_band_witness :
    ((4 : Nat) < 100 ∧ (100 : Nat) < 2 ^ 32) ∧
    decode_from_binary (mkTruncMsg 100) = .ok truncPeakMsg :=
  ⟨⟨by norm_num, by norm_num⟩, truncated_band_decodes 100 (by norm_num) (by norm_num)⟩

/-- C7 counterexample: the truncated-payload message with declared length
100 decodes successfully (into one partially-read peak), rather than
failing with any decode error. -/
theorem truncated_band_cex :
    decode_from_binary (mkTruncMsg 100) = .ok truncPeakMsg ∧
    ∀ e : DecodeError, decode_from_binary (mkTruncMsg 100) ≠ .error e := by
  have h := decode_mkTrunc 100 (by norm_num) (by norm_num)
  exact ⟨h, fun e hc => by rw [h] at hc; exact Except.noConfusion hc⟩

/-! ## The recognizer's neighbour tests (claim C3) -/

/-- C3: a peak is emitted at candidate bin `p ∈ [10, 1014]` only if the
bin's raw magnitude 46 passes back strictly exceeds the maximum of the
spread frame 49 passes back over the eight frequency offsets
`{-10, -7, -4, -3, +1, +2, +5, +8}`, and strictly exceeds the maximum of
`spread_ring[(pos + o) mod 256][p - 1]` over the fourteen time offsets
`{-53, -45, 165, 172, 179, 186, 193, 200, 214, 221, 228, 235, 242, 249}`. -/
theorem peak_neighbour_tests (st : DspState) (p : Nat) (band : FrequencyBand)
    (pk : FrequencyPeak) (hp : 10 ≤ p ∧ p ≤ 1014)
    (h : recognizeBin st p = some (band, pk)) :
    maxND (freqNeighborOffsets.map fun o =>
        rbGet st.spread_ffts_output ((st.spread_ffts_output.position : Int) - 49)
          ((p : Int) + o).toNat) <
      rbGet st.fft_outputs ((st.fft_outputs.position : Int) - 46) p ∧
    maxND (timeNeighborOffsets.map fun o =>
        rbGet st.spread_ffts_output ((st.spread_ffts_output.position : Int) + o)
          (p - 1)) <
      rbGet st.fft_outputs ((st.fft_outputs.position : Int) - 46) p := by
  simp only [recognizeBin] at h
  split at h
  · exact Option.noConfusion h
  · split at h
    · exact Option.noConfusion h
    · split at h
      · exact Option.noConfusion h
      · rename_i h1 h2 h3
        exact ⟨lt_of_not_le h2, lt_of_not_le h3⟩


/-- Concrete evaluation of the recogniser at the spike state, bin 100. -/
theorem recognizeBin_stSpike :
    recognizeBin stSpike 100 =
      some (.band_520_1450, ⟨0, 6144, 6400, 16000⟩) := by
  have hf46 : rbGet stSpike.fft_outputs ((stSpike.fft_outputs.position : Int) - 46) =
      spikeVec := rfl
  have hspread : ∀ i : Int, rbGet stSpike.spread_ffts_output i = zeroVec :=
    fun _ => rfl
  have hmax1 : max ((1 : ℝ) / 64) 1 = 1 := by norm_num
  have hmax0 : max ((1 : ℝ) / 64) 0 = 1 / 64 := by norm_num
  have hlog64 : Real.log ((1 : ℝ) / 64) = -Real.log 64 := by
    rw [one_div, Real.log_inv]
  have hlogpos : (0 : ℝ) < Real.log 64 := Real.log_pos (by norm_num)
  simp only [recognizeBin, hf46, hspread]
  rw [show spikeVec 100 = 1 from rfl, show spikeVec (100 - 1) = 0 from rfl,
    show spikeVec (100 + 1) = 0 from rfl]
  simp only [zeroVec]
  rw [if_neg (by norm_num)]
  rw [if_neg ?g2]
  case g2 => norm_num [freqNeighborOffsets, maxND]
  rw [if_neg ?g3]
  case g3 => norm_num [timeNeighborOffsets, maxND]
  rw [hmax1, hmax0, Real.log_one, hlog64]
  rw [if_neg (by nlinarith)]
  rw [if_neg (by norm_num)]
  norm_num [bandForFreq, pyTrunc]
  exact ⟨rfl, rfl, rfl⟩

/-- Witness for C3 at the concrete spike state and bin 100. -/
theorem peak_neighbour_witness :
    ((10 ≤ (100 : Nat) ∧ (100 : Nat) ≤ 1014) ∧
      recognizeBin stSpike 100 = some (.band_520_1450, ⟨0, 6144, 6400, 16000⟩)) ∧
    (maxND (freqNeighborOffsets.map fun o =>
        rbGet stSpike.spread_ffts_output
          ((stSpike.spread_ffts_output.position : Int) - 49) (((100 : Nat) : Int) + o).toNat) <
      rbGet stSpike.fft_outputs ((stSpike.fft_outputs.position : Int) - 46) 100 ∧
    maxND (timeNeighborOffsets.map fun o =>
        rbGet stSpike.spread_ffts_output
          ((stSpike.spread_ffts_output.position : Int) + o) (100 - 1)) <
      rbGet stSpike.fft_outputs ((stSpike.fft_outputs.position : Int) - 46) 100) :=
  ⟨⟨⟨by norm_num, by norm_num⟩, recognizeBin_stSpike⟩,
    peak_neighbour_tests stSpike 100 _ _ ⟨by norm_num, by norm_num⟩ recognizeBin_stSpike⟩


/-! ## Generator driver-loop and frame-effect lemmas (C8-C10) -/

theorem gnsLoop_pending (st : GenState) :
    (gnsLoop st).input_pending_processing = st.input_pending_processing := by
  induction st using gnsLoop.induct with
  | case1 st h ih => rw [gnsLoop, if_pos h]; exact ih
  | case2 st h => rw [gnsLoop, if_neg h]

theorem gnsLoop_sp (st : GenState) :
    ∃ k : Nat, (gnsLoop st).samples_processed = st.samples_processed + 128 * k := by
  induction st using gnsLoop.induct with
  | case1 st h ih =>
    obtain ⟨k, hk⟩ := ih
    refine ⟨k + 1, ?_⟩
    rw [gnsLoop, if_pos h, hk]
    ring
  | case2 st h => exact ⟨0, by rw [gnsLoop, if_neg h]; omega⟩

theorem gnsLoop_sp_le (st : GenState)
    (hle : st.samples_processed ≤ st.input_pending_processing.length) :
    (gnsLoop st).samples_processed ≤ st.input_pending_processing.length := by
  induction st using gnsLoop.induct with
  | case1 st h ih =>
    rw [gnsLoop, if_pos h]
    refine ih ?_
    show st.samples_processed + 128 ≤ st.input_pending_processing.length
    have := h.1
    omega
  | case2 st h => rw [gnsLoop, if_neg h]; exact hle

theorem gnsLoop_guard_false (st : GenState) :
    ¬(128 ≤ (gnsLoop st).input_pending_processing.length - (gnsLoop st).samples_processed ∧
      (((gnsLoop st).dsp.next_signature.number_samples : ℝ) /
          ((gnsLoop st).dsp.next_signature.sample_rate_hz : ℝ) < 30 ∨
        totalPeaks (gnsLoop st).dsp.next_signature < 255)) := by
  induction st using gnsLoop.induct with
  | case1 st h ih => rw [gnsLoop, if_pos h]; exact ih
  | case2 st h => rw [gnsLoop, if_neg h]; exact h

theorem chunks128_eq_single (c : List Int) (h : c.length = 128) :
    chunks128 c = [c] := by
  have hne : c ≠ [] := by intro e; rw [e] at h; exact absurd h (by decide)
  rw [chunks128, if_neg hne, List.take_of_length_le (by omega),
    List.drop_eq_nil_of_le (by omega), chunks128, if_pos rfl]

theorem process_input_sig_one (st : DspState) (c : List Int) (h : c.length = 128)
    (hnw : ¬ 46 ≤ st.spread_ffts_output.num_written + 1) :
    (process_input st c).next_signature =
      ⟨st.next_signature.sample_rate_hz, st.next_signature.number_samples + 128,
        st.next_signature.frequency_band_to_sound_peaks⟩ := by
  have hnum : ∀ (s : DspState) (cc : List Int),
      (do_peak_spreading (do_fft s cc)).spread_ffts_output.num_written =
        s.spread_ffts_output.num_written + 1 := fun _ _ => rfl
  have hsig : ∀ (s : DspState) (cc : List Int),
      (do_peak_spreading (do_fft s cc)).next_signature = s.next_signature :=
    fun _ _ => rfl
  simp only [process_input, chunks128_eq_single c h, List.foldl_cons, List.foldl_nil,
    do_peak_spreading_and_recognition, hnum, hsig, h]
  rw [if_neg hnw, hsig]
  norm_num

theorem gnsLoop_concrete :
    gnsLoop (feed_input initGen (List.replicate 128 0)) =
      ⟨List.replicate 128 0, 128,
        process_input initGen.dsp (List.replicate 128 0)⟩ := by
  have hfeed : feed_input initGen (List.replicate 128 0) =
      ⟨List.replicate 128 0, 0, initGen.dsp⟩ := by
    simp [feed_input, initGen]
  rw [hfeed, gnsLoop, if_pos ?hg]
  case hg =>
    constructor
    · simp
    · left
      show ((0 : Int) : ℝ) / ((16000 : Nat) : ℝ) < 30
      norm_num
  rw [gnsLoop, if_neg ?hg2]
  case hg2 =>
    intro hc
    have := hc.1
    simp at this
  simp


theorem gns_concrete :
    get_next_signature (feed_input initGen (List.replicate 128 0)) =
      (some ⟨16000, 128, []⟩,
        ⟨List.replicate 128 0, 128,
          resetSignature (process_input initGen.dsp (List.replicate 128 0))⟩) := by
  rw [get_next_signature, if_neg ?hlt]
  case hlt => simp [feed_input, initGen]
  rw [gnsLoop_concrete]
  have hsig : (process_input initGen.dsp (List.replicate 128 0)).next_signature =
      ⟨16000, 128, []⟩ := by
    rw [process_input_sig_one initGen.dsp (List.replicate 128 0) (by simp)
      (by show ¬ 46 ≤ 0 + 1; omega)]
    simp [initGen, resetSignature]
  simp only [hsig]

/-- C10: a successful call to get_next_signature keeps the pending queue
intact, installs a freshly reset DSP state, and advances the consumed
cursor by a multiple of 128, never past the end of the queue. -/
theorem gns_frame_effect (st : GenState) (sig : DecodedMessage)
    (h : (get_next_signature st).1 = some sig) :
    (get_next_signature st).2.input_pending_processing = st.input_pending_processing ∧
    (get_next_signature st).2.dsp = resetSignature st.dsp ∧
    (∃ k : Nat, (get_next_signature st).2.samples_processed =
      st.samples_processed + 128 * k) ∧
    (st.samples_processed ≤ st.input_pending_processing.length →
      (get_next_signature st).2.samples_processed ≤
        st.input_pending_processing.length) := by
  by_cases hc : st.input_pending_processing.length - st.samples_processed < 128
  · rw [get_next_signature, if_pos hc] at h
    exact Option.noConfusion h
  · rw [get_next_signature, if_neg hc]
    exact ⟨gnsLoop_pending st, rfl, gnsLoop_sp st, fun hle => gnsLoop_sp_le st hle⟩

theorem gns_frame_witness :
    (get_next_signature (feed_input initGen (List.replicate 128 0))).1 =
        some ⟨16000, 128, []⟩ ∧
    ((get_next_signature (feed_input initGen (List.replicate 128 0))).2.input_pending_processing =
        (feed_input initGen (List.replicate 128 0)).input_pending_processing ∧
      (get_next_signature (feed_input initGen (List.replicate 128 0))).2.dsp =
        resetSignature (feed_input initGen (List.replicate 128 0)).dsp ∧
      (∃ k : Nat, (get_next_signature (feed_input initGen (List.replicate 128 0))).2.samples_processed =
        (feed_input initGen (List.replicate 128 0)).samples_processed + 128 * k) ∧
      ((feed_input initGen (List.replicate 128 0)).samples_processed ≤
          (feed_input initGen (List.replicate 128 0)).input_pending_processing.length →
        (get_next_signature (feed_input initGen (List.replicate 128 0))).2.samples_processed ≤
          (feed_input initGen (List.replicate 128 0)).input_pending_processing.length)) :=
  ⟨by rw [gns_concrete],
    gns_frame_effect (feed_input initGen (List.replicate 128 0)) ⟨16000, 128, []⟩
      (by rw [gns_concrete])⟩

/-- The original frame-effect sentence fails: the consumed-sample counter is
not left untouched by a successful call; here it moves from 0 to 128. -/
theorem gns_frame_cex :
    (get_next_signature (feed_input initGen (List.replicate 128 0))).2.samples_processed ≠
      (feed_input initGen (List.replicate 128 0)).samples_processed := by
  rw [gns_concrete]
  show (128 : Nat) ≠ (feed_input initGen (List.replicate 128 0)).samples_processed
  simp [feed_input, initGen]

theorem mem_dictInsert_getD {K V : Type} [DecidableEq K] (k : K) (v : V)
    (l : List (K × V)) (q : K × V) (hq : q ∈ dictInsert k v l) :
    q = (k, v) ∨ q ∈ l := by
  induction l with
  | nil =>
    simp only [dictInsert, List.mem_singleton] at hq
    exact Or.inl hq
  | cons hd rest ih =>
    obtain ⟨k1, v1⟩ := hd
    simp only [dictInsert] at hq
    by_cases hk : k1 = k
    · rw [if_pos hk] at hq
      rcases List.mem_cons.mp hq with h | h
      · exact Or.inl h
      · exact Or.inr (List.mem_cons_of_mem _ h)
    · rw [if_neg hk] at hq
      rcases List.mem_cons.mp hq with h | h
      · exact Or.inr (h ▸ List.mem_cons_self _ _)
      · rcases ih h with h1 | h1
        · exact Or.inl h1
        · exact Or.inr (List.mem_cons_of_mem _ h1)

theorem dictGetD_mem {K V : Type} [DecidableEq K] (l : List (K × V)) (k : K)
    (d : V) : dictGetD l k d = d ∨ (k, dictGetD l k d) ∈ l := by
  induction l with
  | nil => exact Or.inl rfl
  | cons hd rest ih =>
    obtain ⟨k1, v1⟩ := hd
    simp only [dictGetD]
    by_cases hk : k1 = k
    · rw [if_pos hk]
      exact Or.inr (by rw [← hk]; exact List.mem_cons_self _ _)
    · rw [if_neg hk]
      rcases ih with h | h
      · exact Or.inl h
      · exact Or.inr (List.mem_cons_of_mem _ h)

theorem bandsInv_appendPeak (w : Nat) (hw : 46 ≤ w)
    (bands : List (FrequencyBand × List FrequencyPeak)) (band : FrequencyBand)
    (pk : FrequencyPeak) (hpass : pk.fft_pass_number = w - 46)
    (hinv : BandsInv w bands) : BandsInv w (dictAppendPeak band pk bands) := by
  intro q hq
  rcases mem_dictInsert_getD _ _ _ _ hq with hq1 | hq2
  · have hold : List.Chain' (fun a b : FrequencyPeak =>
        a.fft_pass_number ≤ b.fft_pass_number) (dictGetD bands band []) ∧
        ∀ x ∈ dictGetD bands band [], x.fft_pass_number + 46 ≤ w := by
      rcases dictGetD_mem bands band ([] : List FrequencyPeak) with he | hm
      · rw [he]
        exact ⟨List.chain'_nil, by intro x hx; cases hx⟩
      · exact hinv _ hm
    rw [hq1]
    constructor
    · rw [List.chain'_append]
      refine ⟨hold.1, List.chain'_singleton _, ?_⟩
      intro x hx y hy
      obtain ⟨hne, hxeq⟩ := List.mem_getLast?_eq_getLast hx
      have hxm : x ∈ dictGetD bands band [] := hxeq ▸ List.getLast_mem hne
      have hxb := hold.2 x hxm
      simp only [List.head?_cons, Option.mem_def, Option.some.injEq] at hy
      rw [← hy, hpass]
      omega
    · intro x hx
      rcases List.mem_append.mp hx with h | h
      · exact hold.2 x h
      · rw [List.mem_singleton.mp h, hpass]
        omega
  · exact hinv q hq2

theorem recognizeBin_pass (st : DspState) (p : Nat) (band : FrequencyBand)
    (pk : FrequencyPeak) (h : recognizeBin st p = some (band, pk)) :
    pk.fft_pass_number = st.spread_ffts_output.num_written - 46 := by
  simp only [recognizeBin] at h
  split at h
  · exact Option.noConfusion h
  · split at h
    · exact Option.noConfusion h
    · split at h
      · exact Option.noConfusion h
      · split at h
        · exact Option.noConfusion h
        · split at h
          · exact Option.noConfusion h
          · split at h
            · exact Option.noConfusion h
            · simp only [Option.some.injEq, Prod.mk.injEq] at h
              rw [← h.2]

theorem foldl_rec_inv (st : DspState) (hw : 46 ≤ st.spread_ffts_output.num_written)
    (l : List Nat) (bands : List (FrequencyBand × List FrequencyPeak))
    (h : BandsInv st.spread_ffts_output.num_written bands) :
    BandsInv st.spread_ffts_output.num_written
      (l.foldl (fun bands p =>
        match recognizeBin st p with
        | none => bands
        | some (band, pk) => dictAppendPeak band pk bands) bands) := by
  induction l generalizing bands with
  | nil => exact h
  | cons p rest ih =>
    rw [List.foldl_cons]
    refine ih _ ?_
    cases hrb : recognizeBin st p with
    | none => simpa only [hrb] using h
    | some x =>
      obtain ⟨band, pk⟩ := x
      simp only [hrb]
      exact bandsInv_appendPeak _ hw _ band pk
        (recognizeBin_pass st p band pk hrb) h

theorem do_fft_inv (st : DspState) (c : List Int) (h : DspInv st) :
    DspInv (do_fft st c) := h

theorem do_peak_spreading_inv (st : DspState) (h : DspInv st) :
    DspInv (do_peak_spreading st) := by
  intro q hq
  obtain ⟨h1, h2⟩ := h q hq
  refine ⟨h1, fun pk hpk => ?_⟩
  have := h2 pk hpk
  show pk.fft_pass_number + 46 ≤ st.spread_ffts_output.num_written + 1
  omega

theorem do_peak_recognition_inv (st : DspState)
    (hw : 46 ≤ st.spread_ffts_output.num_written) (h : DspInv st) :
    DspInv (do_peak_recognition st) :=
  foldl_rec_inv st hw _ _ h

theorem dpsr_inv (st : DspState) (h : DspInv st) :
    DspInv (do_peak_spreading_and_recognition st) := by
  rw [do_peak_spreading_and_recognition]
  have h1 := do_peak_spreading_inv st h
  split
  · exact do_peak_recognition_inv _ (by assumption) h1
  · exact h1

theorem foldl_dsp_inv (cs : List (List Int)) (st : DspState) (h : DspInv st) :
    DspInv (cs.foldl (fun s c =>
      do_peak_spreading_and_recognition (do_fft s c)) st) := by
  induction cs generalizing st with
  | nil => exact h
  | cons c rest ih => exact ih _ (dpsr_inv _ (do_fft_inv st c h))

theorem process_input_inv (st : DspState) (samples : List Int) (h : DspInv st) :
    DspInv (process_input st samples) :=
  foldl_dsp_inv (chunks128 samples) _ h

theorem gnsLoop_inv (st : GenState) (h : DspInv st.dsp) :
    DspInv (gnsLoop st).dsp := by
  induction st using gnsLoop.induct with
  | case1 st hg ih =>
    rw [gnsLoop, if_pos hg]
    exact ih (process_input_inv st.dsp _ h)
  | case2 st hg => rw [gnsLoop, if_neg hg]; exact h

theorem reach_inv (st : GenState) (h : Reach st) : DspInv st.dsp := by
  induction h with
  | init => exact fun q hq => absurd hq (List.not_mem_nil q)
  | feed st samples hst ih => exact ih
  | next st hst ih =>
    by_cases hc : st.input_pending_processing.length - st.samples_processed < 128
    · rw [get_next_signature, if_pos hc]
      exact ih
    · rw [get_next_signature, if_neg hc]
      exact fun q hq => absurd hq (List.not_mem_nil q)

/-- C9: in every signature the generator hands out from a reachable state,
every band's peak list has non-decreasing fft_pass_number values. -/
theorem monotone_pass_numbers (st : GenState) (sig : DecodedMessage)
    (h1 : Reach st) (h2 : (get_next_signature st).1 = some sig) :
    BandsMono sig := by
  have hinv := reach_inv st h1
  by_cases hc : st.input_pending_processing.length - st.samples_processed < 128
  · rw [get_next_signature, if_pos hc] at h2
    exact Option.noConfusion h2
  · rw [get_next_signature, if_neg hc] at h2
    have h3 : (gnsLoop st).dsp.next_signature = sig := Option.some.inj h2
    have h4 := gnsLoop_inv st hinv
    exact ⟨fun q hq => (h4 q (h3 ▸ hq)).1⟩

/-- Witness for C9 at a concrete reachable state. -/
theorem monotone_pass_witness :
    Reach (feed_input initGen (List.replicate 128 0)) ∧
    (get_next_signature (feed_input initGen (List.replicate 128 0))).1 =
      some ⟨16000, 128, []⟩ ∧
    BandsMono ⟨16000, 128, []⟩ :=
  ⟨.feed _ _ .init, by rw [gns_concrete],
    monotone_pass_numbers (feed_input initGen (List.replicate 128 0))
      ⟨16000, 128, []⟩ (.feed _ _ .init) (by rw [gns_concrete])⟩

theorem foldl_rbAppend_zero (c : List Int) (r : RingBuffer Int)
    (hr : ∀ i, r.buffer i = 0) (hc : ∀ x ∈ c, x = 0) :
    ∀ i, (c.foldl rbAppend r).buffer i = 0 := by
  induction c generalizing r with
  | nil => exact hr
  | cons x rest ih =>
    rw [List.foldl_cons]
    refine ih _ ?_ (fun y hy => hc y (List.mem_cons_of_mem _ hy))
    intro i
    show (if i = r.position then x else r.buffer i) = 0
    split
    · exact hc x (List.mem_cons_self _ _)
    · exact hr i

theorem rfft_zero (x : Nat → ℝ) (hx : ∀ j, x j = 0) (k : Nat) : rfft x k = 0 := by
  rw [rfft]
  refine Finset.sum_eq_zero ?_
  intro n hn
  rw [hx n]
  simp

theorem do_fft_silent (st : DspState) (c : List Int) (hs : SilentDsp st)
    (hc : ∀ x ∈ c, x = 0) : SilentDsp (do_fft st c) := by
  obtain ⟨hring, hfft, hb, hsr⟩ := hs
  have hring' : ∀ i, (c.foldl rbAppend st.ring_buffer_of_samples).buffer i = 0 :=
    foldl_rbAppend_zero c st.ring_buffer_of_samples hring hc
  refine ⟨hring', ?_, hb, hsr⟩
  intro i k
  simp only [do_fft, rbAppend]
  split
  · have hex : ∀ j : Nat, hanningWindow j *
        ((rbGet (c.foldl rbAppend st.ring_buffer_of_samples)
          (((c.foldl rbAppend st.ring_buffer_of_samples).position : Int) + j) : Int) : ℝ) = 0 := by
      intro j
      rw [show rbGet (c.foldl rbAppend st.ring_buffer_of_samples)
        (((c.foldl rbAppend st.ring_buffer_of_samples).position : Int) + j) =
          (0 : Int) from hring' _]
      simp
    beta_reduce
    rw [rfft_zero _ hex k, map_zero, zero_div, max_eq_right (by norm_num)]
  · exact hfft i k

theorem recognizeBin_silent (st : DspState)
    (hfft : ∀ i k, st.fft_outputs.buffer i k ≤ 1 / 10 ^ 10) (p : Nat) :
    recognizeBin st p = none := by
  simp only [recognizeBin]
  rw [if_pos]
  exact Or.inl (lt_of_le_of_lt (hfft _ p) (by norm_num))

theorem foldl_of_id {α β : Type} (f : α → β → α) (l : List β)
    (h : ∀ a b, b ∈ l → f a b = a) : ∀ a, l.foldl f a = a := by
  induction l with
  | nil => intro a; rfl
  | cons x rest ih =>
    intro a
    rw [List.foldl_cons, h a x (List.mem_cons_self _ _)]
    exact ih (fun a b hb => h a b (List.mem_cons_of_mem _ hb)) a

theorem do_peak_recognition_silent (st : DspState)
    (hfft : ∀ i k, st.fft_outputs.buffer i k ≤ 1 / 10 ^ 10) :
    (do_peak_recognition st).next_signature.frequency_band_to_sound_peaks =
      st.next_signature.frequency_band_to_sound_peaks := by
  rw [do_peak_recognition]
  refine foldl_of_id _ _ ?_ _
  intro a p hp
  simp only [recognizeBin_silent st hfft]

theorem dpsr_silent (st : DspState) (hs : SilentDsp st) :
    SilentDsp (do_peak_spreading_and_recognition st) ∧
    (do_peak_spreading_and_recognition st).next_signature.number_samples =
      st.next_signature.number_samples := by
  have h1 : SilentDsp (do_peak_spreading st) := hs
  obtain ⟨hr, hf, hb, hsr⟩ := h1
  simp only [do_peak_spreading_and_recognition]
  split
  · exact ⟨⟨hr, hf, (do_peak_recognition_silent _ hf).trans hb, hsr⟩, rfl⟩
  · exact ⟨⟨hr, hf, hb, hsr⟩, rfl⟩

theorem process_input_eq_one (st : DspState) (c : List Int) (h128 : c.length = 128) :
    process_input st c =
      do_peak_spreading_and_recognition (do_fft { st with
        next_signature := { st.next_signature with
          number_samples := st.next_signature.number_samples + 128 } } c) := by
  rw [process_input, chunks128_eq_single c h128]
  simp only [List.foldl_cons, List.foldl_nil, h128]
  norm_num

theorem process_input_silent (st : DspState) (c : List Int) (h128 : c.length = 128)
    (hs : SilentDsp st) (hc : ∀ x ∈ c, x = 0) :
    SilentDsp (process_input st c) ∧
    (process_input st c).next_signature.number_samples =
      st.next_signature.number_samples + 128 := by
  rw [process_input_eq_one st c h128]
  have hs0 : SilentDsp { st with next_signature := { st.next_signature with
      number_samples := st.next_signature.number_samples + 128 } } := hs
  have h1 := dpsr_silent _ (do_fft_silent _ c hs0 hc)
  exact ⟨h1.1, h1.2.trans rfl⟩

theorem gnsLoop_silent (st : GenState) :
    (∀ x ∈ st.input_pending_processing, x = 0) → SilentDsp st.dsp →
    SilentDsp (gnsLoop st).dsp ∧
    (gnsLoop st).dsp.next_signature.number_samples =
      st.dsp.next_signature.number_samples +
        (((gnsLoop st).samples_processed - st.samples_processed : Nat) : Int) := by
  induction st using gnsLoop.induct with
  | case1 st hg ih =>
    intro hz hs
    rw [gnsLoop, if_pos hg]
    have h128 : (List.take 128
        (List.drop st.samples_processed st.input_pending_processing)).length = 128 := by
      have := hg.1
      rw [List.length_take, List.length_drop]
      omega
    have hcz : ∀ x ∈ List.take 128
        (List.drop st.samples_processed st.input_pending_processing), x = 0 :=
      fun x hx => hz x (List.mem_of_mem_drop (List.mem_of_mem_take hx))
    have hps := process_input_silent st.dsp _ h128 hs hcz
    obtain ⟨ih1, ih2⟩ := ih hz hps.1
    refine ⟨ih1, ?_⟩
    rw [ih2, hps.2]
    obtain ⟨k, hk⟩ := gnsLoop_sp ⟨st.input_pending_processing,
      st.samples_processed + 128, process_input st.dsp
        (List.take 128 (List.drop st.samples_processed st.input_pending_processing))⟩
    have hk2 : (gnsLoop ⟨st.input_pending_processing,
        st.samples_processed + 128, process_input st.dsp
          (List.take 128 (List.drop st.samples_processed
            st.input_pending_processing))⟩).samples_processed =
        st.samples_processed + 128 + 128 * k := hk
    rw [hk2]
    omega
  | case2 st hg =>
    intro hz hs
    rw [gnsLoop, if_neg hg]
    exact ⟨hs, by omega⟩


theorem silence_general (L : List Int) (hlen : L.length = 48000)
    (hzL : ∀ x ∈ L, x = 0) :
    (get_next_signature (feed_input initGen L)).1 = some ⟨16000, 48000, []⟩ := by
  have hst0 : feed_input initGen L = ⟨L, 0, initGen.dsp⟩ := by
    rw [feed_input]
    show (⟨[] ++ L, 0, initGen.dsp⟩ : GenState) = _
    rw [List.nil_append]
  rw [hst0, get_next_signature, if_neg ?hlt]
  case hlt =>
    show ¬(L.length - 0 < 128)
    omega
  have hz : ∀ x ∈ (⟨L, 0, initGen.dsp⟩ : GenState).input_pending_processing, x = 0 :=
    hzL
  have hsil : SilentDsp (⟨L, 0, initGen.dsp⟩ : GenState).dsp := by
    refine ⟨fun i => rfl, ?_, rfl, rfl⟩
    intro i k
    show (0 : ℝ) ≤ 1 / 10 ^ 10
    norm_num
  obtain ⟨hsilF, hnsF⟩ := gnsLoop_silent ⟨L, 0, initGen.dsp⟩ hz hsil
  obtain ⟨hringF, hfftF, hbandF, hsrF⟩ := hsilF
  obtain ⟨k, hk⟩ := gnsLoop_sp ⟨L, 0, initGen.dsp⟩
  have hk2 : (gnsLoop ⟨L, 0, initGen.dsp⟩).samples_processed = 0 + 128 * k := hk
  have hle : (gnsLoop ⟨L, 0, initGen.dsp⟩).samples_processed ≤ 48000 := by
    have h1 := gnsLoop_sp_le ⟨L, 0, initGen.dsp⟩ (by show 0 ≤ L.length; omega)
    have h2 : (⟨L, 0, initGen.dsp⟩ :
        GenState).input_pending_processing.length = 48000 := hlen
    omega
  have hns2 : (gnsLoop ⟨L, 0, initGen.dsp⟩).dsp.next_signature.number_samples =
      (((gnsLoop ⟨L, 0, initGen.dsp⟩).samples_processed : Nat) : Int) := by
    rw [hnsF]
    show (0 : Int) +
      (((gnsLoop ⟨L, 0, initGen.dsp⟩).samples_processed - 0 : Nat) : Int) = _
    omega
  have htime : ((gnsLoop ⟨L, 0, initGen.dsp⟩).dsp.next_signature.number_samples : ℝ) /
      ((gnsLoop ⟨L, 0, initGen.dsp⟩).dsp.next_signature.sample_rate_hz : ℝ) < 30 := by
    rw [hns2, hsrF, div_lt_iff₀ (by norm_num)]
    have h48 : ((gnsLoop ⟨L, 0, initGen.dsp⟩).samples_processed : ℝ) ≤ 48000 := by
      exact_mod_cast hle
    push_cast
    nlinarith
  have hguard := gnsLoop_guard_false ⟨L, 0, initGen.dsp⟩
  have hpend := gnsLoop_pending ⟨L, 0, initGen.dsp⟩
  have hlenF : (gnsLoop ⟨L, 0, initGen.dsp⟩).input_pending_processing.length
      = 48000 := by
    rw [hpend]
    exact hlen
  have havail : (gnsLoop ⟨L, 0, initGen.dsp⟩).input_pending_processing.length -
      (gnsLoop ⟨L, 0, initGen.dsp⟩).samples_processed < 128 := by
    by_contra hcon
    exact hguard ⟨by omega, Or.inl htime⟩
  have hsp48 : (gnsLoop ⟨L, 0, initGen.dsp⟩).samples_processed = 48000 := by omega
  show some (gnsLoop ⟨L, 0, initGen.dsp⟩).dsp.next_signature =
    some ⟨16000, 48000, []⟩
  have heta : (gnsLoop ⟨L, 0, initGen.dsp⟩).dsp.next_signature =
      ⟨(gnsLoop ⟨L, 0, initGen.dsp⟩).dsp.next_signature.sample_rate_hz,
       (gnsLoop ⟨L, 0, initGen.dsp⟩).dsp.next_signature.number_samples,
       (gnsLoop ⟨L, 0, initGen.dsp⟩).dsp.next_signature.frequency_band_to_sound_peaks⟩ :=
    rfl
  rw [heta, hsrF, hbandF, hns2, hsp48]
  norm_num

/-- C8: 48000 zero samples through a fresh generator yield the signature
with 48000 samples at 16 kHz and no peaks in any band. -/
theorem silence_yields_empty :
    (get_next_signature (feed_input initGen (List.replicate 48000 0))).1 =
      some ⟨16000, 48000, []⟩ :=
  silence_general (List.replicate 48000 0) (List.length_replicate 48000 0)
    (fun x hx => List.eq_of_mem_replicate hx)

end VibeSync
